import Mathlib

/-!
Verification development for the blkchain Postgres bulk-load pipeline
(`writer.go`, `uint256.go`).  The ingestion coordinator (`pgBlockWorker`),
the per-table writer loops, the resume queries and the helper functions are
embedded as pure Lean functions; goroutine channels are linearized in the
canonical order in which the coordinator emits records (each writer loop is
a fold over the records it receives, so the net table contents are captured
by applying the writer's per-record action in emission order).  Ghost logs
(`txRecs`, `commits`) record the records and commit sentinels the
coordinator emits on the channels.
-/

set_option maxHeartbeats 1600000

namespace Blkchain

/-- Go's `int32(v)` cast as used throughout writer.go: unsigned (or wider)
integers are stored bit-preserving in signed 32-bit columns, so
`0xFFFFFFFF` becomes `-1`. -/
def toInt32 (v : Int) : Int :=
  (v + 2147483648) % 4294967296 - 2147483648

/-- Reinterpreting a stored signed 32-bit value as unsigned: the low 32 bits
of the two's-complement representation. -/
def uint32OfInt (i : Int) : Nat :=
  (i % 4294967296).toNat

/-! ## Uint256 rendering (uint256.go) -/

/-- The sixteen lowercase hexadecimal digit characters, in value order. -/
def hexChars : List Char := "0123456789abcdef".toList

/-- Digit character for a nibble, as produced by Go's `%02x` formatting. -/
def hexDigit (n : Nat) : Char := hexChars.getD n '0'

/-- Go's `fmt.Sprintf("%02x", b)` for a byte value `b < 256`: two lowercase
hex digits. -/
def byteHex (b : Nat) : List Char := [hexDigit (b / 16), hexDigit (b % 16)]

/-- `Uint256.String` from uint256.go: the loop `for i := 0; i < 32; i++`
appends the hex rendering of `u[31-i]`, i.e. the 32 bytes are printed in
reverse order.  A `Uint256` value is modelled as its list of 32 byte
values. -/
def uint256Str (u : List Nat) : List Char :=
  ((List.range 32).map (fun i => byteHex (u.getD (31 - i) 0))).flatten

/-- Value of a hex digit character (inverse of `hexDigit` on digits). -/
def hexVal (c : Char) : Nat := hexChars.indexOf c

/-! ## The tx-id cache

Modelled from the spec: the `txIdCache` implementation
(`newTxIdCache`/`add`/`check`, file txidcache.go) is not under src/; only
its call sites in writer.go are.  Per spec section 4.3 it is a bounded
associative structure from tx hash to `(assigned id, remaining outputs)`
with LRU eviction: `add` returns the stored id on a hit (bumping recency
and the `dups` counter), otherwise inserts, evicting the least recently
used entry when at capacity; `check` returns the id on a hit (bumping
recency and `hits`), `none` on a miss (bumping `miss`).  Entries are kept
most-recent-first.  Tx hashes are abstracted as `Nat`. -/

structure CacheEntry where
  hash : Nat
  id : Int
  outs : Nat
  deriving Repr, DecidableEq

/-- First entry with the given hash, if any. -/
def cacheLookup (h : Nat) : List CacheEntry → Option CacheEntry
  | [] => none
  | e :: es => if e.hash = h then some e else cacheLookup h es

/-- Remove the entries with the given hash. -/
def cacheRemove (h : Nat) : List CacheEntry → List CacheEntry
  | [] => []
  | e :: es => if e.hash = h then cacheRemove h es else e :: cacheRemove h es

structure TxIdCache where
  size : Nat
  entries : List CacheEntry
  hits : Nat
  miss : Nat
  dups : Nat
  evic : Nat
  cols : Nat
  deriving Repr, DecidableEq

/-- Modelled from the spec (section 4.3): `check(hash)` — on a hit, bump
recency and the hit counter and return the stored id; on a miss bump the
miss counter and return `none`. -/
def TxIdCache.check (c : TxIdCache) (h : Nat) : Option Int × TxIdCache :=
  match cacheLookup h c.entries with
  | some e => (some e.id,
      { c with entries := e :: cacheRemove h c.entries, hits := c.hits + 1 })
  | none => (none, { c with miss := c.miss + 1 })

/-- Modelled from the spec (section 4.3): `add(hash, id, outputs)` — on a
hit, return the stored id (leaving the entry, bumping recency and `dups`);
on a miss insert the new entry, evicting the least recently used when at
capacity, and return `id`. -/
def TxIdCache.add (c : TxIdCache) (h : Nat) (id : Int) (outs : Nat) : Int × TxIdCache :=
  match cacheLookup h c.entries with
  | some e => (e.id,
      { c with entries := e :: cacheRemove h c.entries, dups := c.dups + 1 })
  | none =>
    if c.entries.length < c.size then
      (id, { c with entries := ⟨h, id, outs⟩ :: c.entries })
    else
      (id, { c with entries := ⟨h, id, outs⟩ :: c.entries.dropLast, evic := c.evic + 1 })

/-- A fresh cache of the requested capacity (`newTxIdCache(cacheSize)`). -/
def newTxIdCache (cs : Nat) : TxIdCache := ⟨cs, [], 0, 0, 0, 0, 0⟩

/-! ## Input data (modelled from the spec, section 3)

The `Block`, `Tx`, `TxIn`, `TxOut` structures and their `Hash()` methods
are defined in protocol files not under src/; only the fields consumed by
writer.go are modelled.  Hashes are abstracted as `Nat`; `Hash()` results
are carried as fields.  The witness is kept as the opaque bytes its
canonical serialization produces. -/

structure TxIn where
  prevoutHash : Nat
  prevoutN : Nat
  scriptSig : List Nat
  sequence : Nat
  witness : Option (List Nat)
  deriving Repr, DecidableEq

structure TxOut where
  value : Int
  scriptPubKey : List Nat
  deriving Repr, DecidableEq

structure Tx where
  hash : Nat
  version : Nat
  locktime : Nat
  txIns : List TxIn
  txOuts : List TxOut
  deriving Repr, DecidableEq

structure BlockInfo where
  hash : Nat
  height : Int
  version : Nat
  time : Nat
  bits : Nat
  nonce : Nat
  status : Int
  filen : Int
  filepos : Int
  txs : List Tx
  deriving Repr, DecidableEq

/-! ## Table rows -/

/-- A row of the `blocks` table as appended by `pgBlockWriter`. -/
structure BlockRow where
  id : Int
  height : Int
  hash : Nat
  version : Int
  prevhash : Nat
  merkleroot : Nat
  time : Int
  bits : Int
  nonce : Int
  orphan : Bool
  status : Int
  filen : Int
  filepos : Int
  deriving Repr, DecidableEq

/-- A row of the `txs` table as appended by `pgTxWriter`. -/
structure TxRow where
  id : Int
  txid : Nat
  version : Int
  locktime : Int
  deriving Repr, DecidableEq

/-- A row of the `block_txs` table. -/
structure BlockTxRow where
  blockId : Int
  n : Nat
  txId : Int
  deriving Repr, DecidableEq

/-- A row of the `txins` table as appended by `pgTxInWriter`. -/
structure TxInRow where
  txId : Int
  n : Nat
  prevoutHash : Nat
  prevoutN : Int
  scriptSig : List Nat
  sequence : Int
  witness : Option (List Nat)
  prevoutTxId : Option Int
  deriving Repr, DecidableEq

/-- A row of the `txouts` table as appended by `pgTxOutWriter`. -/
structure TxOutRow where
  txId : Int
  n : Nat
  value : Int
  scriptPubKey : List Nat
  deriving Repr, DecidableEq

/-- The `txRec` record the coordinator sends on the tx channel (writer.go
`txRec`; the `tx` pointer is flattened to the fields `pgTxWriter` reads,
the sync channel is not part of the data). -/
structure TxRec where
  id : Int
  blockId : Int
  n : Nat
  hash : Nat
  version : Nat
  locktime : Nat
  dupe : Bool
  deriving Repr, DecidableEq

/-- The four writer channels. -/
inductive Chan where
  | block
  | tx
  | txin
  | txout
  deriving Repr, DecidableEq

/-- Ghost record of the commit sentinels the coordinator sends after a
block: the block id counter at that point and the channels that received a
`nil` sentinel. -/
structure CommitEvent where
  bid : Int
  chans : List Chan
  deriving Repr, DecidableEq

/-! ## Writer row construction (pgBlockWriter / pgTxWriter / pgTxInWriter /
pgTxOutWriter, writer.go) -/

/-- Row appended by `pgBlockWriter` for a `blockRec` (writer.go lines
357-372); `orphan` is the record's zero-value `false`. -/
def mkBlockRow (bid : Int) (prevhash merkleroot : Nat) (bi : BlockInfo) : BlockRow :=
  ⟨bid, bi.height, bi.hash, toInt32 bi.version, prevhash, merkleroot,
    toInt32 bi.time, toInt32 bi.bits, toInt32 bi.nonce, false,
    toInt32 bi.status, toInt32 bi.filen, toInt32 bi.filepos⟩

/-- Row appended by `pgTxWriter` into `txs` for a non-dupe record
(writer.go lines 433-447). -/
def mkTxRow (tr : TxRec) : TxRow :=
  ⟨tr.id, tr.hash, toInt32 tr.version, toInt32 tr.locktime⟩

/-- `pgTxWriter` action for one record: insert into `txs` only when the
record is not a dupe, and always insert the `block_txs` row (writer.go
lines 433-456). -/
def txWriterStep (txRows : List TxRow) (blockTxRows : List BlockTxRow) (tr : TxRec) :
    List TxRow × List BlockTxRow :=
  ((if tr.dupe then txRows else txRows ++ [mkTxRow tr]),
    blockTxRows ++ [⟨tr.blockId, tr.n, tr.id⟩])

/-- `pgTxInWriter` action for one input (writer.go lines 510-532): for a
non-coinbase input (`prevout_n != 0xffffffff`) the prevout tx id is looked
up in the cache (threading the cache, whose counters and recency the check
mutates); for a coinbase input it stays NULL. -/
def mkTxInRow (c : TxIdCache) (txId : Int) (n : Nat) (t : TxIn) : TxIdCache × TxInRow :=
  if t.prevoutN ≠ 4294967295 then
    let r := c.check t.prevoutHash
    (r.2, ⟨txId, n, t.prevoutHash, toInt32 t.prevoutN, t.scriptSig,
      toInt32 t.sequence, t.witness, r.1⟩)
  else
    (c, ⟨txId, n, t.prevoutHash, toInt32 t.prevoutN, t.scriptSig,
      toInt32 t.sequence, t.witness, none⟩)

/-- The txin rows produced for the inputs of one tx, in order, threading
the cache through the checks. -/
def runIns (txId : Int) : Nat → TxIdCache → List TxInRow → List TxIn →
    TxIdCache × List TxInRow
  | _, c, rows, [] => (c, rows)
  | n, c, rows, t :: ts =>
    let p := mkTxInRow c txId n t
    runIns txId (n + 1) p.1 (rows ++ [p.2]) ts

/-- `pgTxOutWriter` rows for the outputs of one tx (writer.go lines
569-574). -/
def mkTxOutRows (txId : Int) : Nat → List TxOut → List TxOutRow
  | _, [] => []
  | n, t :: ts => ⟨txId, n, t.value, t.scriptPubKey⟩ :: mkTxOutRows txId (n + 1) ts

/-! ## The coordinator (pgBlockWorker, writer.go) -/

/-- Coordinator / pipeline state: the id counters and cache owned by the
coordinator, the table contents accumulated by the writers, and the ghost
logs of emitted tx records and commit sentinels. -/
structure WorkerSt where
  bid : Int
  txid : Int
  cache : TxIdCache
  blockRows : List BlockRow
  txRows : List TxRow
  blockTxRows : List BlockTxRow
  txinRows : List TxInRow
  txoutRows : List TxOutRow
  txRecs : List TxRec
  commits : List CommitEvent
  deriving Repr, DecidableEq

/-- Initial state: counters seeded from the resume queries, fresh cache,
empty tables. -/
def initSt (b0 t0 : Int) (cs : Nat) : WorkerSt :=
  ⟨b0, t0, newTxIdCache cs, [], [], [], [], [], [], []⟩

/-- One iteration of the coordinator's per-transaction loop (writer.go
lines 205-248): mint the next tx id, consult `idCache.add`, emit the tx
record (the tx writer inserting accordingly), and — only when the record is
not a dupe — emit its inputs and outputs. -/
def processTx (bid : Int) (n : Nat) (tx : Tx) (st : WorkerSt) : WorkerSt :=
  let txid := st.txid + 1
  let ac := st.cache.add tx.hash txid tx.txOuts.length
  let tr : TxRec := ⟨ac.1, bid, n, tx.hash, tx.version, tx.locktime,
    decide (ac.1 ≠ txid)⟩
  let w := txWriterStep st.txRows st.blockTxRows tr
  let st1 : WorkerSt := { st with
    txid := txid
    cache := ac.2
    txRecs := st.txRecs ++ [tr]
    txRows := w.1
    blockTxRows := w.2 }
  if tr.dupe then st1
  else
    let ir := runIns txid 0 st1.cache st1.txinRows tx.txIns
    { st1 with
      cache := ir.1
      txinRows := ir.2
      txoutRows := st1.txoutRows ++ mkTxOutRows txid 0 tx.txOuts }

/-- The coordinator's loop over the transactions of one block
(`for n, tx := range bi.Txs`). -/
def runTxs (bid : Int) : Nat → WorkerSt → List Tx → WorkerSt
  | _, st, [] => st
  | n, st, t :: ts => runTxs bid (n + 1) (processTx bid n t st) ts

/-- One iteration of the coordinator's block loop (writer.go lines
188-261): mint the next block id, emit the block row, process the txs, then
send commit sentinels — in synchronous mode (`!deferredIndexes`) a `nil` to
the txin and txout channels after every block, in deferred mode a `nil` to
all four channels when `bid%50 == 0`.  The block's prevhash/merkleroot pass
through unused by any claim, so they are abstracted as `0` here. -/
def processBlock (deferred : Bool) (st : WorkerSt) (bi : BlockInfo) : WorkerSt :=
  let bid := st.bid + 1
  let st1 : WorkerSt := { st with
    bid := bid
    blockRows := st.blockRows ++ [mkBlockRow bid 0 0 bi] }
  let st2 := runTxs bid 0 st1 bi.txs
  let chans : List Chan :=
    if deferred = false then [Chan.txin, Chan.txout]
    else if bid % 50 = 0 then [Chan.block, Chan.tx, Chan.txin, Chan.txout]
    else []
  { st2 with commits := st2.commits ++ [⟨bid, chans⟩] }

/-- The coordinator's main loop (`for bi := range ch`). -/
def runBlocks (deferred : Bool) (st : WorkerSt) : List BlockInfo → WorkerSt
  | [] => st
  | b :: bs => runBlocks deferred (processBlock deferred st b) bs

/-- Skip mode (writer.go lines 159-175): with a non-empty stored last hash
the coordinator drains input blocks, discarding each, until one's hash
equals the stored hash; that matching block is itself consumed, and the
rest of the stream remains. -/
def skipBlocks (h : Nat) : List BlockInfo → List BlockInfo
  | [] => []
  | b :: bs => if b.hash = h then bs else skipBlocks h bs

/-- The stream of blocks the coordinator actually ingests: all of them when
no last hash was stored (`len(bhash) == 0`), otherwise the suffix after the
first match. -/
def accepted (o : Option Nat) (blocks : List BlockInfo) : List BlockInfo :=
  match o with
  | none => blocks
  | some h => skipBlocks h blocks

/-- `pgBlockWorker` after its resume queries: seed the counters, apply skip
mode, then ingest. -/
def coreWorker (deferred : Bool) (b0 t0 : Int) (o : Option Nat) (cs : Nat)
    (blocks : List BlockInfo) : WorkerSt :=
  runBlocks deferred (initSt b0 t0 cs) (accepted o blocks)

/-! ## Resume queries (getLastHashAndHeight / getLastTxId, writer.go) -/

/-- The `(id, height, hash)` triple of a row of the `blocks` table as read
by `getLastHashAndHeight`. -/
structure ResumeRow where
  id : Int
  height : Int
  hash : Nat
  deriving Repr, DecidableEq

/-- `SELECT id, height, hash FROM blocks ORDER BY height DESC LIMIT 1`: a
row of maximum height.  SQL leaves the choice among equal heights
unspecified; this linearization keeps the earliest such row. -/
def lastRowByHeight : List ResumeRow → Option ResumeRow
  | [] => none
  | r :: rs =>
    match lastRowByHeight rs with
    | none => some r
    | some m => if r.height < m.height then some m else some r

/-- Pure content of `getLastHashAndHeight` (writer.go lines 655-676): the
max-height row's id, height and hash, or `(0, -1, none)` on an empty
table. -/
def resumeInfo (tbl : List ResumeRow) : Int × Int × Option Nat :=
  match lastRowByHeight tbl with
  | some r => (r.id, r.height, some r.hash)
  | none => (0, -1, none)

/-- `getLastHashAndHeight` including error propagation from the query. -/
def getLastHashAndHeight (q : Except String (List ResumeRow)) :
    Except String (Int × Int × Option Nat) :=
  match q with
  | Except.error e => Except.error e
  | Except.ok tbl => Except.ok (resumeInfo tbl)

/-- Greatest element of a list of tx ids (`SELECT id FROM txs ORDER BY id
DESC LIMIT 1`). -/
def maxIdOf : List Int → Option Int
  | [] => none
  | i :: is =>
    match maxIdOf is with
    | none => some i
    | some m => if i < m then some m else some i

/-- Pure content of `getLastTxId` (writer.go lines 678-694): the greatest
tx id, or 0 on an empty table. -/
def lastTxIdOf (ids : List Int) : Int :=
  match maxIdOf ids with
  | some i => i
  | none => 0

/-- `PGWriter.LastHeight` (writer.go lines 124-127): the height component
of `getLastHashAndHeight`, propagating a query error. -/
def lastHeight (q : Except String (List ResumeRow)) : Except String Int :=
  match getLastHashAndHeight q with
  | Except.error e => Except.error e
  | Except.ok r => Except.ok r.2.1

/-- `pgBlockWorker` with its resume queries against the given table
contents (writer.go lines 129-141 seed the counters and the skip hash). -/
def pgBlockWorker (deferred : Bool) (cs : Nat) (tbl : List ResumeRow)
    (txIds : List Int) (blocks : List BlockInfo) : WorkerSt :=
  let r := resumeInfo tbl
  coreWorker deferred r.1 (lastTxIdOf txIds) r.2.2 cs blocks

/-- Total number of transactions in a block stream. -/
def txCount (blocks : List BlockInfo) : Nat :=
  (blocks.map (fun b => b.txs.length)).sum

/-! ## Schema provisioning (NewPGWriter / createTables, writer.go) -/

/-- Go's `strings.HasPrefix`-style test: does the second list start with
the first. -/
def leadsWith : List Char → List Char → Bool
  | [], _ => true
  | p :: ps, s =>
    match s with
    | [] => false
    | c :: cs => p = c && leadsWith ps cs

/-- Go's `strings.Contains(s, pat)`: does `pat` occur as a contiguous run
inside `s`. -/
def containsSub (pat : List Char) : List Char → Bool
  | [] => pat.isEmpty
  | c :: s => leadsWith pat (c :: s) || containsSub pat s

/-- The substring `NewPGWriter` tests the table-creation error for. -/
def alreadyExists : List Char :=
  ['a', 'l', 'r', 'e', 'a', 'd', 'y', ' ', 'e', 'x', 'i', 's', 't', 's']

/-- `NewPGWriter`'s handling of the `createTables` result (writer.go lines
83-92): no error keeps deferred mode (`true`); an error containing
"already exists" switches to synchronous mode (`false`); any other error is
returned and no pipeline is started.  The returned Bool is the
`deferredIndexes` flag handed to `pgBlockWorker`. -/
def newPGWriter (createRes : Option (List Char)) : Except (List Char) Bool :=
  match createRes with
  | none => Except.ok true
  | some e =>
    if containsSub alreadyExists e then Except.ok false
    else Except.error e

/-- Closed form of the commit-sentinel log the coordinator produces for `k`
blocks starting from block id counter `b0` (compare writer.go lines
250-261). -/
def expectedCommits (d : Bool) : Int → Nat → List CommitEvent
  | _, 0 => []
  | b0, Nat.succ k =>
    ⟨b0 + 1,
      if d = false then [Chan.txin, Chan.txout]
      else if (b0 + 1) % 50 = 0 then [Chan.block, Chan.tx, Chan.txin, Chan.txout]
      else []⟩ :: expectedCommits d (b0 + 1) k

/-- Well-formedness of the input stream: every input's `prevout_n` fits in
an unsigned 32-bit value, as the Go `uint32` field type guarantees. -/
def WfBlocks (blocks : List BlockInfo) : Prop :=
  ∀ b ∈ blocks, ∀ t ∈ b.txs, ∀ i ∈ t.txIns, i.prevoutN < 4294967296

/-- The coordinator/writer invariant tying the cache, the `txs` and
`block_txs` tables, and the emitted records together.  It holds along any
run in which the cache never evicts. -/
structure Inv (st : WorkerSt) : Prop where
  keysNodup : (st.cache.entries.map CacheEntry.hash).Nodup
  idBound : ∀ e ∈ st.cache.entries, e.id ≤ st.txid
  cacheRow : ∀ e ∈ st.cache.entries, ∃ tr ∈ st.txRows, tr.txid = e.hash ∧ tr.id = e.id
  rowCache : ∀ tr ∈ st.txRows, ∃ e ∈ st.cache.entries, e.hash = tr.txid ∧ e.id = tr.id
  rowsNodup : (st.txRows.map TxRow.txid).Nodup
  rowRec : ∀ tr ∈ st.txRows,
    ∃ rc ∈ st.txRecs, rc.dupe = false ∧ rc.hash = tr.txid ∧ rc.id = tr.id
  recRow : ∀ rc ∈ st.txRecs, ∃ tr ∈ st.txRows, tr.txid = rc.hash ∧ tr.id = rc.id
  recBtx : ∀ rc ∈ st.txRecs, (⟨rc.blockId, rc.n, rc.id⟩ : BlockTxRow) ∈ st.blockTxRows
  insOk : ∀ r ∈ st.txinRows, ∃ rc ∈ st.txRecs, rc.dupe = false ∧ rc.id = r.txId
  outsOk : ∀ r ∈ st.txoutRows, ∃ rc ∈ st.txRecs, rc.dupe = false ∧ rc.id = r.txId

/-- Monotonicity invariant for the minted ids: block-row ids and non-dupe
tx-record ids are strictly increasing and bounded by the counters. -/
def IdInv (st : WorkerSt) : Prop :=
  ((st.blockRows.map BlockRow.id).Pairwise (· < ·)) ∧
  (∀ r ∈ st.blockRows, r.id ≤ st.bid) ∧
  (((st.txRecs.filter fun r => r.dupe = false).map TxRec.id).Pairwise (· < ·)) ∧
  (∀ r ∈ st.txRecs, r.dupe = false → r.id ≤ st.txid)

/-- A blocks table in which the row of maximum height (id 4, height 3) is
not the row of maximum id (id 5, an orphan-branch block at height 2
ingested after the height-3 tip). -/
def c1tbl : List ResumeRow :=
  [⟨1, 0, 101⟩, ⟨2, 1, 102⟩, ⟨3, 2, 103⟩, ⟨4, 3, 104⟩, ⟨5, 2, 105⟩]

/-- An input stream resuming against `c1tbl`: the stored last hash 104 is
matched by the first block, so the second block (hash 106) is the first
accepted one. -/
def c1blocks : List BlockInfo :=
  [⟨104, 3, 1, 0, 0, 0, 0, 0, 0, []⟩, ⟨106, 4, 1, 0, 0, 0, 0, 0, 0, []⟩]

/-! ## Arithmetic facts about the 32-bit cast -/

theorem toInt32_of_lt (v : Nat) (hv : v < 4294967296) (h : toInt32 v = -1) :
    v = 4294967295 := by
  unfold toInt32 at h
  omega

/-! ## Hex rendering lemmas -/

theorem flatten2_getD (d : Char) :
    ∀ L : List (List Char), (∀ x ∈ L, x.length = 2) → ∀ i, i < L.length →
      L.flatten.getD (2 * i) d = (L.getD i []).getD 0 d ∧
      L.flatten.getD (2 * i + 1) d = (L.getD i []).getD 1 d := by
  intro L
  induction L with
  | nil => intro _ i hi; simp at hi
  | cons x L ih =>
    intro hlen i hi
    obtain ⟨a, b, rfl⟩ := List.length_eq_two.mp (hlen x (by simp))
    cases i with
    | zero => simp
    | succ i =>
      have h1 : 2 * (i + 1) = 2 * i + 1 + 1 := by ring
      have h2 : 2 * (i + 1) + 1 = (2 * i + 1) + 1 + 1 := by ring
      have := ih (fun y hy => hlen y (by simp [hy])) i (by simpa using hi)
      simpa [h1, h2] using this

theorem flatten2_length :
    ∀ L : List (List Char), (∀ x ∈ L, x.length = 2) → L.flatten.length = 2 * L.length := by
  intro L
  induction L with
  | nil => simp
  | cons x L ih =>
    intro hlen
    have hx := hlen x (by simp)
    simp [hx, ih (fun y hy => hlen y (by simp [hy]))]
    ring

theorem getD_map_range (g : Nat → List Char) (n i : Nat) (hi : i < n) :
    ((List.range n).map g).getD i [] = g i := by
  rw [List.getD_eq_getElem?_getD, List.getElem?_map, List.getElem?_range hi]
  rfl

theorem hexVal_hexDigit : ∀ n, n < 16 → hexVal (hexDigit n) = n := by decide

theorem hexDigit_mem : ∀ n, n < 16 → hexDigit n ∈ hexChars := by decide

/-! ## Substring lemmas (Go strings.Contains) -/

theorem leadsWith_iff : ∀ p s : List Char, leadsWith p s = true ↔ ∃ r, s = p ++ r
  | [], s => by simp [leadsWith]
  | a :: as, [] => by simp [leadsWith]
  | a :: as, b :: bs => by
    simp only [leadsWith, Bool.and_eq_true, decide_eq_true_eq, List.cons_append,
      List.cons.injEq]
    rw [leadsWith_iff as bs]
    constructor
    · rintro ⟨rfl, r, rfl⟩; exact ⟨r, rfl, rfl⟩
    · rintro ⟨r, rfl, rfl⟩; exact ⟨rfl, r, rfl⟩

theorem containsSub_iff (p : List Char) :
    ∀ s : List Char, containsSub p s = true ↔ ∃ pre post, s = pre ++ p ++ post := by
  intro s
  induction s with
  | nil =>
    simp only [containsSub, List.isEmpty_iff]
    constructor
    · rintro rfl; exact ⟨[], [], rfl⟩
    · rintro ⟨pre, post, h⟩
      rcases List.append_eq_nil.mp h.symm with ⟨h1, h2⟩
      exact (List.append_eq_nil.mp h1).2
  | cons c s ih =>
    simp only [containsSub, Bool.or_eq_true, leadsWith_iff, ih]
    constructor
    · rintro (⟨r, hr⟩ | ⟨pre, post, rfl⟩)
      · exact ⟨[], r, by simp [hr]⟩
      · exact ⟨c :: pre, post, rfl⟩
    · rintro ⟨pre, post, hs⟩
      cases pre with
      | nil => exact Or.inl ⟨post, by simpa using hs⟩
      | cons c0 pre =>
        right
        rcases List.cons.injEq .. ▸ hs with ⟨-, h2⟩
        exact ⟨pre, post, by simpa using h2⟩

/-! ## Resume query lemmas -/

theorem lastRowByHeight_eq_none : ∀ l : List ResumeRow, lastRowByHeight l = none ↔ l = [] := by
  intro l
  cases l with
  | nil => simp [lastRowByHeight]
  | cons r rs =>
    simp only [lastRowByHeight]
    constructor
    · intro h
      cases hrs : lastRowByHeight rs with
      | none => rw [hrs] at h; simp at h
      | some m => rw [hrs] at h; dsimp only at h; split at h <;> simp at h
    · intro h; simp at h

theorem lastRowByHeight_max :
    ∀ l : List ResumeRow, l ≠ [] →
      ∃ r ∈ l, lastRowByHeight l = some r ∧ ∀ q ∈ l, q.height ≤ r.height := by
  intro l
  induction l with
  | nil => intro h; exact absurd rfl h
  | cons r rs ih =>
    intro _
    cases hrs : lastRowByHeight rs with
    | none =>
      have : rs = [] := (lastRowByHeight_eq_none rs).mp hrs
      subst this
      exact ⟨r, by simp, by simp [lastRowByHeight], by simp⟩
    | some m =>
      have hne : rs ≠ [] := by
        intro h; subst h; simp [lastRowByHeight] at hrs
      obtain ⟨r', hr'mem, hr'eq, hr'max⟩ := ih hne
      have hmr : m = r' := by rw [hrs] at hr'eq; injection hr'eq
      subst hmr
      by_cases hlt : r.height < m.height
      · refine ⟨m, by simp [hr'mem], ?_, ?_⟩
        · simp [lastRowByHeight, hrs, hlt]
        · intro q hq
          rcases List.mem_cons.mp hq with rfl | hq
          · exact le_of_lt hlt
          · exact hr'max q hq
      · refine ⟨r, by simp, ?_, ?_⟩
        · simp [lastRowByHeight, hrs, hlt]
        · intro q hq
          rcases List.mem_cons.mp hq with rfl | hq
          · exact le_refl _
          · exact le_trans (hr'max q hq) (by omega)

theorem maxIdOf_spec : ∀ ids : List Int, ∀ i ∈ ids, ∃ m, maxIdOf ids = some m ∧ i ≤ m := by
  intro ids
  induction ids with
  | nil => simp
  | cons j js ih =>
    intro i hi
    cases hjs : maxIdOf js with
    | none =>
      rcases List.mem_cons.mp hi with rfl | hi
      · exact ⟨i, by simp [maxIdOf, hjs], le_refl i⟩
      · obtain ⟨m, hm, -⟩ := ih i hi
        rw [hjs] at hm
        exact absurd hm (by simp)
    | some m =>
      by_cases hlt : j < m
      · rcases List.mem_cons.mp hi with rfl | hi
        · exact ⟨m, by simp [maxIdOf, hjs, hlt], le_of_lt hlt⟩
        · obtain ⟨m', hm', him⟩ := ih i hi
          rw [hjs] at hm'
          injection hm' with hm'
          subst hm'
          exact ⟨m, by simp [maxIdOf, hjs, hlt], him⟩
      · rcases List.mem_cons.mp hi with rfl | hi
        · exact ⟨i, by simp [maxIdOf, hjs, hlt], le_refl i⟩
        · obtain ⟨m', hm', him⟩ := ih i hi
          rw [hjs] at hm'
          injection hm' with hm'
          subst hm'
          exact ⟨j, by simp [maxIdOf, hjs, hlt], by omega⟩

theorem lastTxIdOf_max : ∀ ids : List Int, ∀ i ∈ ids, i ≤ lastTxIdOf ids := by
  intro ids i hi
  obtain ⟨m, hm, him⟩ := maxIdOf_spec ids i hi
  simpa [lastTxIdOf, hm] using him

/-! ## Claim C7: schema "already exists" handling -/

/-- C7: when table creation fails with an error whose text contains
"already exists", `NewPGWriter` does not fail and switches to synchronous
mode (`deferredIndexes = false`); any other table-creation error is
returned and no pipeline is started; no error keeps deferred mode.  The
last conjunct characterizes the modelled `strings.Contains`. -/
theorem c7_schema_exists :
    (newPGWriter none = Except.ok true) ∧
    (∀ e, containsSub alreadyExists e = true → newPGWriter (some e) = Except.ok false) ∧
    (∀ e, containsSub alreadyExists e = false → newPGWriter (some e) = Except.error e) ∧
    (∀ e, containsSub alreadyExists e = true ↔ ∃ pre post, e = pre ++ alreadyExists ++ post) := by
  refine ⟨rfl, ?_, ?_, fun e => containsSub_iff alreadyExists e⟩
  · intro e h; simp [newPGWriter, h]
  · intro e h; simp [newPGWriter, h]

/-- Witness for C7 at concrete error strings: an "already exists" error
yields synchronous mode, another error is propagated. -/
theorem c7_schema_exists_witness :
    (containsSub alreadyExists ("relation blocks already exists".toList) = true ∧
      newPGWriter (some ("relation blocks already exists".toList)) = Except.ok false) ∧
    (containsSub alreadyExists ("connection refused".toList) = false ∧
      newPGWriter (some ("connection refused".toList)) = Except.error ("connection refused".toList)) :=
  ⟨⟨by decide, c7_schema_exists.2.1 _ (by decide)⟩,
   ⟨by decide, c7_schema_exists.2.2.1 _ (by decide)⟩⟩

/-! ## Claim C8: LastHeight -/

/-- C8: `LastHeight()` propagates a query error, returns −1 on an empty
`blocks` table, and otherwise returns the greatest persisted height (the
height of the row `getLastHashAndHeight` selects, which is maximal). -/
theorem c8_last_height :
    (∀ e, lastHeight (Except.error e) = Except.error e) ∧
    (lastHeight (Except.ok []) = Except.ok (-1)) ∧
    (∀ tbl : List ResumeRow, tbl ≠ [] →
      ∃ r ∈ tbl, lastHeight (Except.ok tbl) = Except.ok r.height ∧
        ∀ q ∈ tbl, q.height ≤ r.height) := by
  refine ⟨fun e => rfl, rfl, ?_⟩
  intro tbl htbl
  obtain ⟨r, hmem, heq, hmax⟩ := lastRowByHeight_max tbl htbl
  exact ⟨r, hmem, by simp [lastHeight, getLastHashAndHeight, resumeInfo, heq], hmax⟩

/-- Witness for C8 on a concrete two-row table. -/
theorem c8_last_height_witness :
    ([(⟨1, 0, 7⟩ : ResumeRow), ⟨2, 5, 8⟩] ≠ []) ∧
    (∃ r ∈ [(⟨1, 0, 7⟩ : ResumeRow), ⟨2, 5, 8⟩],
      lastHeight (Except.ok [⟨1, 0, 7⟩, ⟨2, 5, 8⟩]) = Except.ok r.height ∧
        ∀ q ∈ [(⟨1, 0, 7⟩ : ResumeRow), ⟨2, 5, 8⟩], q.height ≤ r.height) :=
  ⟨by decide, c8_last_height.2.2 _ (by decide)⟩

/-! ## Claim C9: bit-preserving 32-bit storage -/

/-- C9: every unsigned 32-bit input field is stored through the
bit-preserving `int32` cast — `0xFFFFFFFF` is stored as −1, reinterpreting
the stored value as unsigned recovers the input exactly, and each of the
stored columns (version, time, bits, nonce, status, filen, filepos on
blocks; version, locktime on txs; prevout_n, sequence on txins) is the cast
of the corresponding input field. -/
theorem c9_int32_roundtrip :
    (toInt32 4294967295 = -1) ∧
    (∀ v : Nat, v < 4294967296 → uint32OfInt (toInt32 v) = v) ∧
    (∀ bid ph mr bi, (mkBlockRow bid ph mr bi).version = toInt32 bi.version ∧
      (mkBlockRow bid ph mr bi).time = toInt32 bi.time ∧
      (mkBlockRow bid ph mr bi).bits = toInt32 bi.bits ∧
      (mkBlockRow bid ph mr bi).nonce = toInt32 bi.nonce ∧
      (mkBlockRow bid ph mr bi).status = toInt32 bi.status ∧
      (mkBlockRow bid ph mr bi).filen = toInt32 bi.filen ∧
      (mkBlockRow bid ph mr bi).filepos = toInt32 bi.filepos) ∧
    (∀ tr : TxRec, (mkTxRow tr).version = toInt32 tr.version ∧
      (mkTxRow tr).locktime = toInt32 tr.locktime) ∧
    (∀ c txId n t, (mkTxInRow c txId n t).2.prevoutN = toInt32 t.prevoutN ∧
      (mkTxInRow c txId n t).2.sequence = toInt32 t.sequence) := by
  refine ⟨by decide, ?_, ?_, ?_, ?_⟩
  · intro v hv
    simp only [toInt32, uint32OfInt]
    omega
  · intro bid ph mr bi; exact ⟨rfl, rfl, rfl, rfl, rfl, rfl, rfl⟩
  · intro tr; exact ⟨rfl, rfl⟩
  · intro c txId n t
    unfold mkTxInRow
    split <;> exact ⟨rfl, rfl⟩

/-- Witness for C9: the unsigned round-trip at `0xFFFFFFFF`. -/
theorem c9_int32_roundtrip_witness :
    (4294967295 : Nat) < 4294967296 ∧
      uint32OfInt (toInt32 (4294967295 : Nat)) = 4294967295 :=
  ⟨by decide, c9_int32_roundtrip.2.1 4294967295 (by decide)⟩

/-! ## Claim C10: Uint256.String -/

/-- C10: for a 32-byte value, `Uint256.String` produces exactly 64
lowercase hexadecimal characters, and the two characters at positions
`2*i`, `2*i+1` encode byte `u[31-i]` — the bytes are rendered in reverse
order. -/
theorem c10_uint256_string (u : List Nat) (hlen : u.length = 32)
    (hb : ∀ b ∈ u, b < 256) :
    (uint256Str u).length = 64 ∧
    (∀ c ∈ uint256Str u, c ∈ hexChars) ∧
    (∀ i, i < 32 →
      16 * hexVal ((uint256Str u).getD (2 * i) '0') +
        hexVal ((uint256Str u).getD (2 * i + 1) '0') = u.getD (31 - i) 0) := by
  have hbyte : ∀ i, i < 32 → u.getD (31 - i) 0 < 256 := by
    intro i hi
    have h31 : 31 - i < u.length := by omega
    rw [List.getD_eq_getElem u 0 h31]
    exact hb _ (List.getElem_mem h31)
  have hchunks : ∀ x ∈ (List.range 32).map (fun i => byteHex (u.getD (31 - i) 0)),
      x.length = 2 := by
    intro x hx
    obtain ⟨i, -, rfl⟩ := List.mem_map.mp hx
    rfl
  refine ⟨?_, ?_, ?_⟩
  · rw [uint256Str, flatten2_length _ hchunks]
    simp
  · intro c hc
    obtain ⟨x, hx, hcx⟩ := List.mem_flatten.mp hc
    obtain ⟨i, hi, rfl⟩ := List.mem_map.mp hx
    have hi32 : i < 32 := List.mem_range.mp hi
    have hblt := hbyte i hi32
    rcases List.mem_pair.mp hcx with rfl | rfl
    · exact hexDigit_mem _ (by omega)
    · exact hexDigit_mem _ (by omega)
  · intro i hi
    have hL : i < ((List.range 32).map (fun i => byteHex (u.getD (31 - i) 0))).length := by
      simpa using hi
    obtain ⟨h0, h1⟩ := flatten2_getD '0' _ hchunks i hL
    rw [uint256Str, h0, h1, getD_map_range _ 32 i hi]
    have hblt := hbyte i hi
    show 16 * hexVal (hexDigit (u.getD (31 - i) 0 / 16)) +
      hexVal (hexDigit (u.getD (31 - i) 0 % 16)) = u.getD (31 - i) 0
    rw [hexVal_hexDigit _ (by omega), hexVal_hexDigit _ (by omega)]
    omega

/-- Witness for C10 at the concrete byte vector `[0, 1, ..., 31]`. -/
theorem c10_uint256_string_witness :
    ((List.range 32).length = 32 ∧ ∀ b ∈ List.range 32, b < 256) ∧
    ((uint256Str (List.range 32)).length = 64 ∧
      (∀ c ∈ uint256Str (List.range 32), c ∈ hexChars) ∧
      (∀ i, i < 32 →
        16 * hexVal ((uint256Str (List.range 32)).getD (2 * i) '0') +
          hexVal ((uint256Str (List.range 32)).getD (2 * i + 1) '0')
            = (List.range 32).getD (31 - i) 0)) :=
  ⟨⟨by decide, by decide⟩, c10_uint256_string _ (by decide) (by decide)⟩

/-! ## Claim C1: resume seeding -/

/-- Counterexample to C1 as stated: `getLastHashAndHeight` selects the row
with maximum height, whose id (4) is not the greatest existing block id
(5); consequently the first accepted block receives id 5, not
`greatest + 1 = 6`. -/
theorem c1_resume_seed_counterexample :
    (resumeInfo c1tbl).1 = 4 ∧
    (∃ r ∈ c1tbl, r.id = 5) ∧ (∀ r ∈ c1tbl, r.id ≤ 5) ∧
    ((pgBlockWorker true 10 c1tbl [] c1blocks).blockRows.map BlockRow.id = [5]) ∧
    ((pgBlockWorker true 10 c1tbl [] c1blocks).blockRows.map BlockRow.id ≠ [5 + 1]) := by
  refine ⟨by decide, by decide, by decide, ?_, ?_⟩ <;> decide

/-! ## Structural lemmas about the coordinator loop -/

theorem processTx_bid (bid : Int) (n : Nat) (tx : Tx) (st : WorkerSt) :
    (processTx bid n tx st).bid = st.bid := by
  unfold processTx; dsimp only; split <;> rfl

theorem processTx_blockRows (bid : Int) (n : Nat) (tx : Tx) (st : WorkerSt) :
    (processTx bid n tx st).blockRows = st.blockRows := by
  unfold processTx; dsimp only; split <;> rfl

theorem processTx_commits (bid : Int) (n : Nat) (tx : Tx) (st : WorkerSt) :
    (processTx bid n tx st).commits = st.commits := by
  unfold processTx; dsimp only; split <;> rfl

theorem processTx_txid (bid : Int) (n : Nat) (tx : Tx) (st : WorkerSt) :
    (processTx bid n tx st).txid = st.txid + 1 := by
  unfold processTx; dsimp only; split <;> rfl

theorem processTx_txRecs (bid : Int) (n : Nat) (tx : Tx) (st : WorkerSt) :
    ∃ tr : TxRec, (processTx bid n tx st).txRecs = st.txRecs ++ [tr] ∧
      tr.blockId = bid ∧ tr.n = n ∧ tr.hash = tx.hash ∧
      (tr.dupe = false → tr.id = st.txid + 1) := by
  unfold processTx
  dsimp only
  split
  · refine ⟨_, rfl, rfl, rfl, rfl, ?_⟩
    intro h
    simp only [decide_eq_false_iff_not, not_not] at h
    exact h
  · refine ⟨_, rfl, rfl, rfl, rfl, ?_⟩
    intro h
    simp only [decide_eq_false_iff_not, not_not] at h
    exact h

theorem runTxs_bid (bid : Int) :
    ∀ (l : List Tx) (n : Nat) (st : WorkerSt), (runTxs bid n st l).bid = st.bid := by
  intro l
  induction l with
  | nil => intro n st; rfl
  | cons t ts ih => intro n st; rw [runTxs, ih, processTx_bid]

theorem runTxs_blockRows (bid : Int) :
    ∀ (l : List Tx) (n : Nat) (st : WorkerSt),
      (runTxs bid n st l).blockRows = st.blockRows := by
  intro l
  induction l with
  | nil => intro n st; rfl
  | cons t ts ih => intro n st; rw [runTxs, ih, processTx_blockRows]

theorem runTxs_commits (bid : Int) :
    ∀ (l : List Tx) (n : Nat) (st : WorkerSt),
      (runTxs bid n st l).commits = st.commits := by
  intro l
  induction l with
  | nil => intro n st; rfl
  | cons t ts ih => intro n st; rw [runTxs, ih, processTx_commits]

theorem runTxs_txid (bid : Int) :
    ∀ (l : List Tx) (n : Nat) (st : WorkerSt),
      (runTxs bid n st l).txid = st.txid + l.length := by
  intro l
  induction l with
  | nil => intro n st; simp [runTxs]
  | cons t ts ih =>
    intro n st
    rw [runTxs, ih, processTx_txid]
    simp
    omega

theorem runTxs_txRecs_mono (bid : Int) :
    ∀ (l : List Tx) (n : Nat) (st : WorkerSt),
      ∃ s, (runTxs bid n st l).txRecs = st.txRecs ++ s := by
  intro l
  induction l with
  | nil => intro n st; exact ⟨[], by simp [runTxs]⟩
  | cons t ts ih =>
    intro n st
    obtain ⟨tr, htr, -⟩ := processTx_txRecs bid n t st
    obtain ⟨s, hs⟩ := ih (n + 1) (processTx bid n t st)
    exact ⟨[tr] ++ s, by rw [runTxs, hs, htr, List.append_assoc]⟩

theorem processBlock_bid (d : Bool) (st : WorkerSt) (b : BlockInfo) :
    (processBlock d st b).bid = st.bid + 1 := by
  unfold processBlock; dsimp only; rw [runTxs_bid]

theorem processBlock_blockRows (d : Bool) (st : WorkerSt) (b : BlockInfo) :
    (processBlock d st b).blockRows = st.blockRows ++ [mkBlockRow (st.bid + 1) 0 0 b] := by
  unfold processBlock; dsimp only; rw [runTxs_blockRows]

theorem processBlock_txid (d : Bool) (st : WorkerSt) (b : BlockInfo) :
    (processBlock d st b).txid = st.txid + b.txs.length := by
  unfold processBlock; dsimp only; rw [runTxs_txid]

theorem processBlock_commits (d : Bool) (st : WorkerSt) (b : BlockInfo) :
    (processBlock d st b).commits = st.commits ++
      [⟨st.bid + 1,
        if d = false then [Chan.txin, Chan.txout]
        else if (st.bid + 1) % 50 = 0 then [Chan.block, Chan.tx, Chan.txin, Chan.txout]
        else []⟩] := by
  unfold processBlock; dsimp only; rw [runTxs_commits]

theorem processBlock_txRecs_mono (d : Bool) (st : WorkerSt) (b : BlockInfo) :
    ∃ s, (processBlock d st b).txRecs = st.txRecs ++ s := by
  unfold processBlock
  dsimp only
  obtain ⟨s, hs⟩ := runTxs_txRecs_mono (st.bid + 1) b.txs 0
    { st with
      bid := st.bid + 1
      blockRows := st.blockRows ++ [mkBlockRow (st.bid + 1) 0 0 b] }
  exact ⟨s, hs⟩

theorem runBlocks_bid (d : Bool) :
    ∀ (bs : List BlockInfo) (st : WorkerSt),
      (runBlocks d st bs).bid = st.bid + bs.length := by
  intro bs
  induction bs with
  | nil => intro st; simp [runBlocks]
  | cons b bs ih =>
    intro st
    rw [runBlocks, ih, processBlock_bid]
    simp
    omega

theorem runBlocks_txid (d : Bool) :
    ∀ (bs : List BlockInfo) (st : WorkerSt),
      (runBlocks d st bs).txid = st.txid + txCount bs := by
  intro bs
  induction bs with
  | nil => intro st; simp [runBlocks, txCount]
  | cons b bs ih =>
    intro st
    rw [runBlocks, ih, processBlock_txid]
    simp [txCount]
    omega

theorem runBlocks_commits (d : Bool) :
    ∀ (bs : List BlockInfo) (st : WorkerSt),
      (runBlocks d st bs).commits = st.commits ++ expectedCommits d st.bid bs.length := by
  intro bs
  induction bs with
  | nil => intro st; simp [runBlocks, expectedCommits]
  | cons b bs ih =>
    intro st
    rw [runBlocks, ih, processBlock_commits, processBlock_bid, List.length_cons,
      expectedCommits, List.append_assoc]
    rfl

theorem runBlocks_blockRows_mono (d : Bool) :
    ∀ (bs : List BlockInfo) (st : WorkerSt),
      ∃ s, (runBlocks d st bs).blockRows = st.blockRows ++ s := by
  intro bs
  induction bs with
  | nil => intro st; exact ⟨[], by simp [runBlocks]⟩
  | cons b bs ih =>
    intro st
    obtain ⟨s, hs⟩ := ih (processBlock d st b)
    rw [runBlocks, hs, processBlock_blockRows]
    exact ⟨[mkBlockRow (st.bid + 1) 0 0 b] ++ s, by rw [List.append_assoc]⟩

theorem runBlocks_txRecs_mono (d : Bool) :
    ∀ (bs : List BlockInfo) (st : WorkerSt),
      ∃ s, (runBlocks d st bs).txRecs = st.txRecs ++ s := by
  intro bs
  induction bs with
  | nil => intro st; exact ⟨[], by simp [runBlocks]⟩
  | cons b bs ih =>
    intro st
    obtain ⟨s1, hs1⟩ := processBlock_txRecs_mono d st b
    obtain ⟨s2, hs2⟩ := ih (processBlock d st b)
    exact ⟨s1 ++ s2, by rw [runBlocks, hs2, hs1, List.append_assoc]⟩

theorem expectedCommits_chans (d : Bool) :
    ∀ (k : Nat) (b0 : Int), ∀ e ∈ expectedCommits d b0 k,
      e.chans = if d = false then [Chan.txin, Chan.txout]
        else if e.bid % 50 = 0 then [Chan.block, Chan.tx, Chan.txin, Chan.txout]
        else [] := by
  intro k
  induction k with
  | zero => intro b0 e he; simp [expectedCommits] at he
  | succ k ih =>
    intro b0 e he
    rcases List.mem_cons.mp he with rfl | he
    · rfl
    · exact ih (b0 + 1) e he

/-! ## Claim C6: commit-sentinel cadence -/

/-- C6: the commit-sentinel log of a run is exactly one event per accepted
block with consecutive block ids; in synchronous mode every event sends
`nil` to the txin and txout channels, in deferred mode an event sends `nil`
to all four channels exactly when its block id is a multiple of 50 (and
nothing otherwise) — so from an empty store (`b0 = 0`) sentinels go out
every 50 blocks. -/
theorem c6_commit_cadence (d : Bool) (cs : Nat) (b0 t0 : Int) (o : Option Nat)
    (blocks : List BlockInfo) :
    ((coreWorker d b0 t0 o cs blocks).commits
      = expectedCommits d b0 (accepted o blocks).length) ∧
    (∀ e ∈ (coreWorker d b0 t0 o cs blocks).commits,
      e.chans = if d = false then [Chan.txin, Chan.txout]
        else if e.bid % 50 = 0 then [Chan.block, Chan.tx, Chan.txin, Chan.txout]
        else []) := by
  have h := runBlocks_commits d (accepted o blocks) (initSt b0 t0 cs)
  have hinit : (initSt b0 t0 cs).commits = [] := rfl
  have hbid : (initSt b0 t0 cs).bid = b0 := rfl
  rw [hinit, hbid] at h
  refine ⟨h, ?_⟩
  intro e he
  rw [coreWorker] at he
  rw [h] at he
  simp only [List.nil_append] at he
  exact expectedCommits_chans d _ b0 e he

/-- Witness for C6: with an empty store and deferred mode, a 51-block
stream commits exactly at block 50. -/
theorem c6_commit_cadence_witness :
    ((coreWorker true 0 0 none 4 (List.replicate 51 ⟨9, 0, 1, 0, 0, 0, 0, 0, 0, []⟩)).commits
      = expectedCommits true 0 (accepted none (List.replicate 51 ⟨9, 0, 1, 0, 0, 0, 0, 0, 0, []⟩)).length) ∧
    (∀ e ∈ (coreWorker true 0 0 none 4 (List.replicate 51 ⟨9, 0, 1, 0, 0, 0, 0, 0, 0, []⟩)).commits,
      e.chans = if (true : Bool) = false then [Chan.txin, Chan.txout]
        else if e.bid % 50 = 0 then [Chan.block, Chan.tx, Chan.txin, Chan.txout]
        else []) :=
  c6_commit_cadence true 4 0 0 none (List.replicate 51 ⟨9, 0, 1, 0, 0, 0, 0, 0, 0, []⟩)

/-! ## Claim C5: skip mode -/

theorem skipBlocks_spec (h : Nat) :
    ∀ (xs : List BlockInfo) (m : BlockInfo) (ys : List BlockInfo),
      m.hash = h → (∀ x ∈ xs, x.hash ≠ h) → skipBlocks h (xs ++ m :: ys) = ys := by
  intro xs
  induction xs with
  | nil => intro m ys hm _; simp [skipBlocks, hm]
  | cons x xs ih =>
    intro m ys hm hxs
    have hx : x.hash ≠ h := hxs x (by simp)
    simp only [List.cons_append, skipBlocks, if_neg hx]
    exact ih m ys hm (fun y hy => hxs y (by simp [hy]))

/-- C5: with a non-empty stored last hash the coordinator discards input
blocks up to and including the first one whose hash matches, and the run is
exactly the run over the remaining suffix — no ids are assigned and no
records are emitted for the skipped blocks. -/
theorem c5_skip_mode (d : Bool) (cs : Nat) (b0 t0 : Int) (h : Nat)
    (xs ys : List BlockInfo) (m : BlockInfo) (hm : m.hash = h)
    (hxs : ∀ x ∈ xs, x.hash ≠ h) :
    skipBlocks h (xs ++ m :: ys) = ys ∧
    coreWorker d b0 t0 (some h) cs (xs ++ m :: ys) = coreWorker d b0 t0 none cs ys := by
  have he := skipBlocks_spec h xs m ys hm hxs
  exact ⟨he, by simp [coreWorker, accepted, he]⟩

/-- Witness for C5: a three-block stream resuming at the second block's
hash ingests only the third block. -/
theorem c5_skip_mode_witness :
    ((⟨2, 1, 1, 0, 0, 0, 0, 0, 0, []⟩ : BlockInfo).hash = 2 ∧
      (∀ x ∈ [(⟨1, 0, 1, 0, 0, 0, 0, 0, 0, []⟩ : BlockInfo)], x.hash ≠ 2)) ∧
    (skipBlocks 2 ([⟨1, 0, 1, 0, 0, 0, 0, 0, 0, []⟩] ++
        ⟨2, 1, 1, 0, 0, 0, 0, 0, 0, []⟩ :: [⟨3, 2, 1, 0, 0, 0, 0, 0, 0, []⟩])
      = [⟨3, 2, 1, 0, 0, 0, 0, 0, 0, []⟩] ∧
      coreWorker true 0 0 (some 2) 4 ([⟨1, 0, 1, 0, 0, 0, 0, 0, 0, []⟩] ++
        ⟨2, 1, 1, 0, 0, 0, 0, 0, 0, []⟩ :: [⟨3, 2, 1, 0, 0, 0, 0, 0, 0, []⟩])
        = coreWorker true 0 0 none 4 [⟨3, 2, 1, 0, 0, 0, 0, 0, 0, []⟩]) :=
  ⟨⟨by decide, by decide⟩,
    c5_skip_mode true 4 0 0 2 _ _ _ (by decide) (by decide)⟩

/-! ## Claim C4: monotonic ids -/

theorem idInv_processTx (bid : Int) (n : Nat) (tx : Tx) (st : WorkerSt)
    (h : IdInv st) : IdInv (processTx bid n tx st) := by
  obtain ⟨hb1, hb2, ht1, ht2⟩ := h
  obtain ⟨tr, htr, -, -, -, hid⟩ := processTx_txRecs bid n tx st
  refine ⟨?_, ?_, ?_, ?_⟩
  · rw [processTx_blockRows]; exact hb1
  · rw [processTx_blockRows, processTx_bid]; exact hb2
  · rw [htr, List.filter_append]
    cases hd : tr.dupe with
    | true =>
      have hnil : List.filter (fun r => decide (r.dupe = false)) [tr] = [] := by
        simp [hd]
      rw [hnil, List.append_nil]
      exact ht1
    | false =>
      have hidv := hid hd
      have hone : List.filter (fun r => decide (r.dupe = false)) [tr] = [tr] := by
        simp [hd]
      rw [hone, List.map_append, List.pairwise_append]
      refine ⟨ht1, by simp, ?_⟩
      intro a ha b hb
      obtain ⟨r, hr, rfl⟩ := List.mem_map.mp ha
      obtain ⟨hrmem, hrd⟩ := List.mem_filter.mp hr
      have hle : r.id ≤ st.txid := ht2 r hrmem (by simpa using hrd)
      have hbv : b = tr.id := by simpa using hb
      omega
  · intro r hr hrd
    rw [processTx_txid]
    rw [htr] at hr
    rcases List.mem_append.mp hr with hr | hr
    · have := ht2 r hr hrd
      omega
    · have : r = tr := by simpa using hr
      subst this
      exact le_of_eq (hid hrd)

theorem idInv_runTxs (bid : Int) :
    ∀ (l : List Tx) (n : Nat) (st : WorkerSt), IdInv st → IdInv (runTxs bid n st l) := by
  intro l
  induction l with
  | nil => intro n st h; exact h
  | cons t ts ih => intro n st h; exact ih (n + 1) _ (idInv_processTx bid n t st h)

theorem idInv_processBlock (d : Bool) (st : WorkerSt) (b : BlockInfo)
    (h : IdInv st) : IdInv (processBlock d st b) := by
  obtain ⟨hb1, hb2, ht1, ht2⟩ := h
  have hmid : IdInv { st with
      bid := st.bid + 1
      blockRows := st.blockRows ++ [mkBlockRow (st.bid + 1) 0 0 b] } := by
    refine ⟨?_, ?_, ht1, ht2⟩
    · simp only [List.map_append, List.pairwise_append]
      refine ⟨hb1, by simp, ?_⟩
      intro a ha c hc
      obtain ⟨r, hr, rfl⟩ := List.mem_map.mp ha
      have := hb2 r hr
      simp only [List.map_cons, List.map_nil, List.mem_singleton] at hc
      subst hc
      show r.id < (mkBlockRow (st.bid + 1) 0 0 b).id
      simp only [mkBlockRow]
      omega
    · intro r hr
      rcases List.mem_append.mp hr with hr | hr
      · have := hb2 r hr
        show r.id ≤ st.bid + 1
        omega
      · have : r = mkBlockRow (st.bid + 1) 0 0 b := by simpa using hr
        subst this
        show (mkBlockRow (st.bid + 1) 0 0 b).id ≤ st.bid + 1
        simp [mkBlockRow]
  have hrun := idInv_runTxs (st.bid + 1) b.txs 0 _ hmid
  obtain ⟨g1, g2, g3, g4⟩ := hrun
  exact ⟨g1, g2, g3, g4⟩

theorem idInv_runBlocks (d : Bool) :
    ∀ (bs : List BlockInfo) (st : WorkerSt), IdInv st → IdInv (runBlocks d st bs) := by
  intro bs
  induction bs with
  | nil => intro st h; exact h
  | cons b bs ih => intro st h; exact ih _ (idInv_processBlock d st b h)

/-- C4: ids are strictly increasing in ingestion order — block-row ids are
pairwise increasing, non-dupe tx-record ids are pairwise increasing, and
the counters advance by exactly one per accepted block and per seen
transaction (so a dupe still consumes its minted tx id, which is never
reused). -/
theorem c4_monotonic_ids (d : Bool) (cs : Nat) (b0 t0 : Int) (o : Option Nat)
    (blocks : List BlockInfo) :
    (((coreWorker d b0 t0 o cs blocks).blockRows.map BlockRow.id).Pairwise (· < ·)) ∧
    ((((coreWorker d b0 t0 o cs blocks).txRecs.filter fun r => r.dupe = false).map
        TxRec.id).Pairwise (· < ·)) ∧
    ((coreWorker d b0 t0 o cs blocks).bid = b0 + (accepted o blocks).length) ∧
    ((coreWorker d b0 t0 o cs blocks).txid = t0 + txCount (accepted o blocks)) := by
  have hinv : IdInv (initSt b0 t0 cs) := by
    refine ⟨by simp [initSt], by simp [initSt], by simp [initSt], by simp [initSt]⟩
  have h := idInv_runBlocks d (accepted o blocks) (initSt b0 t0 cs) hinv
  obtain ⟨g1, g2, g3, g4⟩ := h
  refine ⟨g1, g3, ?_, ?_⟩
  · rw [coreWorker, runBlocks_bid]; rfl
  · rw [coreWorker, runBlocks_txid]; rfl

/-! ## Claim C1 (amended): resume seeding of the id counters -/

theorem processTx_txRecs_empty_cache (bid : Int) (n : Nat) (tx : Tx) (st : WorkerSt)
    (h : st.cache.entries = []) :
    (processTx bid n tx st).txRecs =
      st.txRecs ++ [⟨st.txid + 1, bid, n, tx.hash, tx.version, tx.locktime, false⟩] := by
  have hl : cacheLookup tx.hash st.cache.entries = none := by rw [h]; rfl
  unfold processTx TxIdCache.add
  rw [hl]
  dsimp only
  split <;> simp

theorem processBlock_txRecs_run (d : Bool) (st : WorkerSt) (b : BlockInfo) :
    (processBlock d st b).txRecs =
      (runTxs (st.bid + 1) 0
        { st with
          bid := st.bid + 1
          blockRows := st.blockRows ++ [mkBlockRow (st.bid + 1) 0 0 b] } b.txs).txRecs := rfl

/-- C1 (amended): on startup the coordinator seeds the block counter with
the id of the blocks row of greatest *height* (which can differ from the
greatest block id) and the tx counter with the greatest tx id; the first
accepted block then receives that id + 1 and the first minted tx the tx
seed + 1. -/
theorem c1_resume_seed (d : Bool) (cs : Nat) (tbl : List ResumeRow) (txIds : List Int)
    (blocks : List BlockInfo) (b : BlockInfo) (rest : List BlockInfo)
    (hacc : accepted (resumeInfo tbl).2.2 blocks = b :: rest) :
    ((pgBlockWorker d cs tbl txIds blocks).blockRows.head?.map BlockRow.id
      = some ((resumeInfo tbl).1 + 1)) ∧
    (b.txs ≠ [] →
      (pgBlockWorker d cs tbl txIds blocks).txRecs.head?.map TxRec.id
        = some (lastTxIdOf txIds + 1)) ∧
    (∀ i ∈ txIds, i ≤ lastTxIdOf txIds) ∧
    (tbl ≠ [] → ∃ r ∈ tbl, resumeInfo tbl = (r.id, r.height, some r.hash) ∧
      ∀ q ∈ tbl, q.height ≤ r.height) := by
  have hpw : pgBlockWorker d cs tbl txIds blocks =
      runBlocks d (initSt (resumeInfo tbl).1 (lastTxIdOf txIds) cs) (b :: rest) := by
    rw [pgBlockWorker, coreWorker, hacc]
  refine ⟨?_, ?_, lastTxIdOf_max txIds, ?_⟩
  · rw [hpw, runBlocks]
    obtain ⟨s, hs⟩ := runBlocks_blockRows_mono d rest
      (processBlock d (initSt (resumeInfo tbl).1 (lastTxIdOf txIds) cs) b)
    rw [hs, processBlock_blockRows]
    have hinit : (initSt (resumeInfo tbl).1 (lastTxIdOf txIds) cs).blockRows = [] := rfl
    have hbid : (initSt (resumeInfo tbl).1 (lastTxIdOf txIds) cs).bid = (resumeInfo tbl).1 := rfl
    rw [hinit, hbid, List.nil_append]
    rfl
  · intro hne
    obtain ⟨t, ts, hts⟩ := List.exists_cons_of_ne_nil hne
    rw [hpw, runBlocks]
    obtain ⟨s, hs⟩ := runBlocks_txRecs_mono d rest
      (processBlock d (initSt (resumeInfo tbl).1 (lastTxIdOf txIds) cs) b)
    rw [hs, processBlock_txRecs_run, hts, runTxs]
    obtain ⟨s2, hs2⟩ := runTxs_txRecs_mono
      ((initSt (resumeInfo tbl).1 (lastTxIdOf txIds) cs).bid + 1) ts 1 _
    rw [hs2, processTx_txRecs_empty_cache _ _ _ _ rfl]
    rfl
  · intro htbl
    obtain ⟨r, hmem, heq, hmax⟩ := lastRowByHeight_max tbl htbl
    exact ⟨r, hmem, by simp [resumeInfo, heq], hmax⟩

/-- Witness for C1 on a concrete resume: table row (id 2, height 3,
hash 9), greatest tx id 7, skip to hash 9, then a block with one tx. -/
theorem c1_resume_seed_witness :
    (accepted (resumeInfo [(⟨2, 3, 9⟩ : ResumeRow)]).2.2
        [⟨9, 3, 1, 0, 0, 0, 0, 0, 0, []⟩,
          ⟨10, 4, 1, 0, 0, 0, 0, 0, 0, [⟨77, 1, 0, [], [⟨5, []⟩]⟩]⟩]
      = (⟨10, 4, 1, 0, 0, 0, 0, 0, 0, [⟨77, 1, 0, [], [⟨5, []⟩]⟩]⟩ : BlockInfo) :: []) ∧
    ((pgBlockWorker true 4 [⟨2, 3, 9⟩] [7]
        [⟨9, 3, 1, 0, 0, 0, 0, 0, 0, []⟩,
          ⟨10, 4, 1, 0, 0, 0, 0, 0, 0, [⟨77, 1, 0, [], [⟨5, []⟩]⟩]⟩]).blockRows.head?.map
        BlockRow.id = some ((resumeInfo [(⟨2, 3, 9⟩ : ResumeRow)]).1 + 1)) ∧
    ((pgBlockWorker true 4 [⟨2, 3, 9⟩] [7]
        [⟨9, 3, 1, 0, 0, 0, 0, 0, 0, []⟩,
          ⟨10, 4, 1, 0, 0, 0, 0, 0, 0, [⟨77, 1, 0, [], [⟨5, []⟩]⟩]⟩]).txRecs.head?.map
        TxRec.id = some (lastTxIdOf [7] + 1)) :=
  ⟨by decide,
    (c1_resume_seed true 4 [⟨2, 3, 9⟩] [7]
      [⟨9, 3, 1, 0, 0, 0, 0, 0, 0, []⟩,
        ⟨10, 4, 1, 0, 0, 0, 0, 0, 0, [⟨77, 1, 0, [], [⟨5, []⟩]⟩]⟩]
      ⟨10, 4, 1, 0, 0, 0, 0, 0, 0, [⟨77, 1, 0, [], [⟨5, []⟩]⟩]⟩ [] (by decide)).1,
    (c1_resume_seed true 4 [⟨2, 3, 9⟩] [7]
      [⟨9, 3, 1, 0, 0, 0, 0, 0, 0, []⟩,
        ⟨10, 4, 1, 0, 0, 0, 0, 0, 0, [⟨77, 1, 0, [], [⟨5, []⟩]⟩]⟩]
      ⟨10, 4, 1, 0, 0, 0, 0, 0, 0, [⟨77, 1, 0, [], [⟨5, []⟩]⟩]⟩ [] (by decide)).2.1
      (by decide)⟩

/-! ## Cache lemmas -/

theorem cacheLookup_some (h : Nat) :
    ∀ (l : List CacheEntry) (e : CacheEntry),
      cacheLookup h l = some e → e ∈ l ∧ e.hash = h := by
  intro l
  induction l with
  | nil => intro e he; simp [cacheLookup] at he
  | cons e0 es ih =>
    intro e he
    by_cases h0 : e0.hash = h
    · rw [cacheLookup, if_pos h0] at he
      injection he with he
      subst he
      exact ⟨by simp, h0⟩
    · rw [cacheLookup, if_neg h0] at he
      obtain ⟨hmem, hh⟩ := ih e he
      exact ⟨by simp [hmem], hh⟩

theorem cacheLookup_none_iff (h : Nat) :
    ∀ l : List CacheEntry, cacheLookup h l = none ↔ ∀ e ∈ l, e.hash ≠ h := by
  intro l
  induction l with
  | nil => simp [cacheLookup]
  | cons e0 es ih =>
    by_cases h0 : e0.hash = h
    · simp [cacheLookup, h0]
    · simp [cacheLookup, h0, ih]

theorem cacheRemove_sublist (h : Nat) :
    ∀ l : List CacheEntry, (cacheRemove h l).Sublist l := by
  intro l
  induction l with
  | nil => simp [cacheRemove]
  | cons e0 es ih =>
    rw [cacheRemove]
    split
    · exact ih.cons e0
    · exact ih.cons₂ e0

theorem cacheRemove_subset (h : Nat) (l : List CacheEntry) :
    ∀ x ∈ cacheRemove h l, x ∈ l :=
  fun _ hx => (cacheRemove_sublist h l).mem hx

theorem cacheRemove_keys_ne (h : Nat) :
    ∀ l : List CacheEntry, ∀ x ∈ cacheRemove h l, x.hash ≠ h := by
  intro l
  induction l with
  | nil => simp [cacheRemove]
  | cons e0 es ih =>
    intro x hx
    rw [cacheRemove] at hx
    split at hx
    · exact ih x hx
    · rcases List.mem_cons.mp hx with rfl | hx
      · assumption
      · exact ih x hx

theorem cacheRemove_mem (h : Nat) :
    ∀ l : List CacheEntry, ∀ x ∈ l, x.hash ≠ h → x ∈ cacheRemove h l := by
  intro l
  induction l with
  | nil => simp
  | cons e0 es ih =>
    intro x hx hxh
    rcases List.mem_cons.mp hx with rfl | hx
    · rw [cacheRemove, if_neg hxh]; simp
    · rw [cacheRemove]
      split
      · exact ih x hx hxh
      · exact List.mem_cons_of_mem _ (ih x hx hxh)

theorem cacheRemove_eq_self (h : Nat) :
    ∀ l : List CacheEntry, (∀ e ∈ l, e.hash ≠ h) → cacheRemove h l = l := by
  intro l
  induction l with
  | nil => intro _; rfl
  | cons e0 es ih =>
    intro hl
    rw [cacheRemove, if_neg (hl e0 (by simp)), ih (fun e he => hl e (by simp [he]))]

theorem cacheRemove_length (h : Nat) :
    ∀ (l : List CacheEntry) (e : CacheEntry),
      (l.map CacheEntry.hash).Nodup → cacheLookup h l = some e →
      (cacheRemove h l).length + 1 = l.length := by
  intro l
  induction l with
  | nil => intro e _ he; simp [cacheLookup] at he
  | cons e0 es ih =>
    intro e hnd he
    simp only [List.map_cons, List.nodup_cons] at hnd
    by_cases h0 : e0.hash = h
    · rw [cacheRemove, if_pos h0]
      have hes : ∀ x ∈ es, x.hash ≠ h := by
        intro x hx hxh
        have hin : e0.hash ∈ List.map CacheEntry.hash es := by
          rw [h0, ← hxh]
          exact List.mem_map_of_mem CacheEntry.hash hx
        exact hnd.1 hin
      rw [cacheRemove_eq_self h es hes]
      simp
    · rw [cacheRemove, if_neg h0]
      rw [cacheLookup, if_neg h0] at he
      simp only [List.length_cons]
      rw [← ih e hnd.2 he]

theorem mem_hit_iff (h : Nat) (l : List CacheEntry) (e : CacheEntry)
    (hnd : (l.map CacheEntry.hash).Nodup) (he : cacheLookup h l = some e) :
    ∀ x, x ∈ e :: cacheRemove h l ↔ x ∈ l := by
  obtain ⟨hemem, heh⟩ := cacheLookup_some h l e he
  intro x
  constructor
  · intro hx
    rcases List.mem_cons.mp hx with rfl | hx
    · exact hemem
    · exact cacheRemove_subset h l x hx
  · intro hx
    by_cases hxh : x.hash = h
    · have : x = e := List.inj_on_of_nodup_map hnd hx hemem (by rw [hxh, heh])
      subst this
      simp
    · exact List.mem_cons_of_mem _ (cacheRemove_mem h l x hx hxh)

theorem hit_keys_nodup (h : Nat) (l : List CacheEntry) (e : CacheEntry)
    (hnd : (l.map CacheEntry.hash).Nodup) (he : cacheLookup h l = some e) :
    (((e :: cacheRemove h l).map CacheEntry.hash)).Nodup := by
  obtain ⟨-, heh⟩ := cacheLookup_some h l e he
  simp only [List.map_cons, List.nodup_cons]
  constructor
  · intro hmem
    obtain ⟨x, hx, hxh⟩ := List.mem_map.mp hmem
    exact cacheRemove_keys_ne h l x hx (by rw [hxh, heh])
  · exact List.Nodup.sublist ((cacheRemove_sublist h l).map CacheEntry.hash) hnd

/-- Net effect of `TxIdCache.check`: the entry set, its key nodup-ness, its
length and the capacity are all preserved. -/
theorem check_preserves (c : TxIdCache) (h : Nat)
    (hnd : (c.entries.map CacheEntry.hash).Nodup) :
    ((c.check h).2.size = c.size) ∧
    (∀ x, x ∈ (c.check h).2.entries ↔ x ∈ c.entries) ∧
    (((c.check h).2.entries.map CacheEntry.hash).Nodup) ∧
    ((c.check h).2.entries.length = c.entries.length) := by
  unfold TxIdCache.check
  cases he : cacheLookup h c.entries with
  | none => exact ⟨rfl, fun x => Iff.rfl, hnd, rfl⟩
  | some e =>
    refine ⟨rfl, mem_hit_iff h c.entries e hnd he, hit_keys_nodup h c.entries e hnd he, ?_⟩
    show (e :: cacheRemove h c.entries).length = c.entries.length
    rw [List.length_cons, cacheRemove_length h c.entries e hnd he]

theorem mkTxInRow_cache (c : TxIdCache) (txId : Int) (n : Nat) (t : TxIn)
    (hnd : (c.entries.map CacheEntry.hash).Nodup) :
    ((mkTxInRow c txId n t).1.size = c.size) ∧
    (∀ x, x ∈ (mkTxInRow c txId n t).1.entries ↔ x ∈ c.entries) ∧
    (((mkTxInRow c txId n t).1.entries.map CacheEntry.hash).Nodup) ∧
    ((mkTxInRow c txId n t).1.entries.length = c.entries.length) := by
  unfold mkTxInRow
  split
  · exact check_preserves c t.prevoutHash hnd
  · exact ⟨rfl, fun x => Iff.rfl, hnd, rfl⟩

theorem mkTxInRow_txId (c : TxIdCache) (txId : Int) (n : Nat) (t : TxIn) :
    (mkTxInRow c txId n t).2.txId = txId := by
  unfold mkTxInRow
  split <;> rfl

theorem runIns_preserves (txId : Int) :
    ∀ (l : List TxIn) (n : Nat) (c : TxIdCache) (rows : List TxInRow),
      (c.entries.map CacheEntry.hash).Nodup →
      ((runIns txId n c rows l).1.size = c.size) ∧
      (∀ x, x ∈ (runIns txId n c rows l).1.entries ↔ x ∈ c.entries) ∧
      (((runIns txId n c rows l).1.entries.map CacheEntry.hash).Nodup) ∧
      ((runIns txId n c rows l).1.entries.length = c.entries.length) ∧
      (∃ new, (runIns txId n c rows l).2 = rows ++ new ∧ ∀ r ∈ new, r.txId = txId) := by
  intro l
  induction l with
  | nil =>
    intro n c rows hnd
    exact ⟨rfl, fun x => Iff.rfl, hnd, rfl, [], by simp [runIns], by simp⟩
  | cons t ts ih =>
    intro n c rows hnd
    obtain ⟨hsz, hmem, hnd1, hlen⟩ := mkTxInRow_cache c txId n t hnd
    obtain ⟨hsz2, hmem2, hnd2, hlen2, new, hnew, hnewP⟩ :=
      ih (n + 1) (mkTxInRow c txId n t).1 (rows ++ [(mkTxInRow c txId n t).2]) hnd1
    rw [runIns]
    refine ⟨by rw [hsz2, hsz], fun x => (hmem2 x).trans (hmem x), hnd2,
      by rw [hlen2, hlen], ?_⟩
    refine ⟨[(mkTxInRow c txId n t).2] ++ new, ?_, ?_⟩
    · rw [hnew, List.append_assoc]
    · intro r hr
      rcases List.mem_append.mp hr with hr | hr
      · have : r = (mkTxInRow c txId n t).2 := by simpa using hr
        subst this
        exact mkTxInRow_txId c txId n t
      · exact hnewP r hr

theorem mkTxOutRows_txId (txId : Int) :
    ∀ (l : List TxOut) (n : Nat), ∀ r ∈ mkTxOutRows txId n l, r.txId = txId := by
  intro l
  induction l with
  | nil => intro n r hr; simp [mkTxOutRows] at hr
  | cons t ts ih =>
    intro n r hr
    rw [mkTxOutRows] at hr
    rcases List.mem_cons.mp hr with rfl | hr
    · rfl
    · exact ih (n + 1) r hr

theorem processTx_hit (bid : Int) (n : Nat) (tx : Tx) (st : WorkerSt) (e : CacheEntry)
    (hc : cacheLookup tx.hash st.cache.entries = some e)
    (hne : e.id ≠ st.txid + 1) :
    processTx bid n tx st = { st with
      txid := st.txid + 1
      cache := { st.cache with
        entries := e :: cacheRemove tx.hash st.cache.entries
        dups := st.cache.dups + 1 }
      txRecs := st.txRecs ++ [⟨e.id, bid, n, tx.hash, tx.version, tx.locktime, true⟩]
      blockTxRows := st.blockTxRows ++ [⟨bid, n, e.id⟩] } := by
  have hd : decide (e.id ≠ st.txid + 1) = true := decide_eq_true hne
  unfold processTx TxIdCache.add
  rw [hc]
  dsimp only
  rw [hd]
  simp [txWriterStep]

theorem processTx_miss (bid : Int) (n : Nat) (tx : Tx) (st : WorkerSt)
    (hc : cacheLookup tx.hash st.cache.entries = none)
    (hlen : st.cache.entries.length < st.cache.size) :
    processTx bid n tx st =
      { st with
        txid := st.txid + 1
        cache := (runIns (st.txid + 1) 0
          { st.cache with
            entries := ⟨tx.hash, st.txid + 1, tx.txOuts.length⟩ :: st.cache.entries }
          st.txinRows tx.txIns).1
        txRecs := st.txRecs ++
          [⟨st.txid + 1, bid, n, tx.hash, tx.version, tx.locktime, false⟩]
        txRows := st.txRows ++
          [mkTxRow ⟨st.txid + 1, bid, n, tx.hash, tx.version, tx.locktime, false⟩]
        blockTxRows := st.blockTxRows ++ [⟨bid, n, st.txid + 1⟩]
        txinRows := (runIns (st.txid + 1) 0
          { st.cache with
            entries := ⟨tx.hash, st.txid + 1, tx.txOuts.length⟩ :: st.cache.entries }
          st.txinRows tx.txIns).2
        txoutRows := st.txoutRows ++ mkTxOutRows (st.txid + 1) 0 tx.txOuts } := by
  unfold processTx TxIdCache.add
  rw [hc]
  dsimp only
  rw [if_pos hlen]
  simp [txWriterStep]

theorem inv_processTx (bid : Int) (n : Nat) (tx : Tx) (st : WorkerSt)
    (hInv : Inv st) (hlen : st.cache.entries.length < st.cache.size) :
    Inv (processTx bid n tx st) ∧
    ((processTx bid n tx st).cache.entries.length ≤ st.cache.entries.length + 1) ∧
    ((processTx bid n tx st).cache.size = st.cache.size) := by
  cases hc : cacheLookup tx.hash st.cache.entries with
  | some e =>
    obtain ⟨hemem, heh⟩ := cacheLookup_some tx.hash st.cache.entries e hc
    have hle : e.id ≤ st.txid := hInv.idBound e hemem
    have hne : e.id ≠ st.txid + 1 := by omega
    rw [processTx_hit bid n tx st e hc hne]
    have hmem := mem_hit_iff tx.hash st.cache.entries e hInv.keysNodup hc
    refine ⟨⟨?_, ?_, ?_, ?_, ?_, ?_, ?_, ?_, ?_, ?_⟩, ?_, ?_⟩
    · exact hit_keys_nodup tx.hash st.cache.entries e hInv.keysNodup hc
    · intro x hx
      have hxm : x ∈ st.cache.entries := (hmem x).mp hx
      have := hInv.idBound x hxm
      show x.id ≤ st.txid + 1
      omega
    · intro x hx
      exact hInv.cacheRow x ((hmem x).mp hx)
    · intro tr htr
      obtain ⟨e', he'm, he'⟩ := hInv.rowCache tr htr
      exact ⟨e', (hmem e').mpr he'm, he'⟩
    · exact hInv.rowsNodup
    · intro tr htr
      obtain ⟨rc, hrcm, hrc⟩ := hInv.rowRec tr htr
      exact ⟨rc, List.mem_append_left _ hrcm, hrc⟩
    · intro rc hrc
      rcases List.mem_append.mp hrc with hrc | hrc
      · exact hInv.recRow rc hrc
      · have : rc = ⟨e.id, bid, n, tx.hash, tx.version, tx.locktime, true⟩ := by
          simpa using hrc
        subst this
        obtain ⟨tr, htrm, htr1, htr2⟩ := hInv.cacheRow e hemem
        exact ⟨tr, htrm, by rw [htr1, heh], htr2⟩
    · intro rc hrc
      rcases List.mem_append.mp hrc with hrc | hrc
      · exact List.mem_append_left _ (hInv.recBtx rc hrc)
      · have : rc = ⟨e.id, bid, n, tx.hash, tx.version, tx.locktime, true⟩ := by
          simpa using hrc
        subst this
        exact List.mem_append_right _ (by simp)
    · intro r hr
      obtain ⟨rc, hrcm, hrc⟩ := hInv.insOk r hr
      exact ⟨rc, List.mem_append_left _ hrcm, hrc⟩
    · intro r hr
      obtain ⟨rc, hrcm, hrc⟩ := hInv.outsOk r hr
      exact ⟨rc, List.mem_append_left _ hrcm, hrc⟩
    · show (e :: cacheRemove tx.hash st.cache.entries).length ≤ st.cache.entries.length + 1
      rw [List.length_cons, cacheRemove_length tx.hash st.cache.entries e hInv.keysNodup hc]
      omega
    · rfl
  | none =>
    have hfresh : ∀ x ∈ st.cache.entries, x.hash ≠ tx.hash :=
      (cacheLookup_none_iff tx.hash st.cache.entries).mp hc
    have hndm : (((⟨tx.hash, st.txid + 1, tx.txOuts.length⟩ : CacheEntry) ::
        st.cache.entries).map CacheEntry.hash).Nodup := by
      simp only [List.map_cons, List.nodup_cons]
      constructor
      · intro hmem
        obtain ⟨x, hx, hxh⟩ := List.mem_map.mp hmem
        exact hfresh x hx hxh
      · exact hInv.keysNodup
    obtain ⟨hsz, hmem, hnd2, hlen2, new, hnew, hnewP⟩ :=
      runIns_preserves (st.txid + 1) tx.txIns 0
        { st.cache with
          entries := ⟨tx.hash, st.txid + 1, tx.txOuts.length⟩ :: st.cache.entries }
        st.txinRows hndm
    have hhash_not_row : ∀ tr ∈ st.txRows, tr.txid ≠ tx.hash := by
      intro tr htr hth
      obtain ⟨e', he'm, he'1, -⟩ := hInv.rowCache tr htr
      exact hfresh e' he'm (by rw [he'1, hth])
    rw [processTx_miss bid n tx st hc hlen]
    refine ⟨⟨?_, ?_, ?_, ?_, ?_, ?_, ?_, ?_, ?_, ?_⟩, ?_, ?_⟩
    · exact hnd2
    · intro x hx
      have hxm := (hmem x).mp hx
      show x.id ≤ st.txid + 1
      rcases List.mem_cons.mp hxm with rfl | hxm
      · rfl
      · have := hInv.idBound x hxm
        omega
    · intro x hx
      have hxm := (hmem x).mp hx
      rcases List.mem_cons.mp hxm with rfl | hxm
      · exact ⟨mkTxRow ⟨st.txid + 1, bid, n, tx.hash, tx.version, tx.locktime, false⟩,
          List.mem_append_right _ (by simp), rfl, rfl⟩
      · obtain ⟨tr, htrm, htr⟩ := hInv.cacheRow x hxm
        exact ⟨tr, List.mem_append_left _ htrm, htr⟩
    · intro tr htr
      rcases List.mem_append.mp htr with htr | htr
      · obtain ⟨e', he'm, he'⟩ := hInv.rowCache tr htr
        exact ⟨e', (hmem e').mpr (List.mem_cons_of_mem _ he'm), he'⟩
      · have : tr = mkTxRow ⟨st.txid + 1, bid, n, tx.hash, tx.version, tx.locktime, false⟩ := by
          simpa using htr
        subst this
        exact ⟨⟨tx.hash, st.txid + 1, tx.txOuts.length⟩,
          (hmem _).mpr (by simp), rfl, rfl⟩
    · simp only [List.map_append, List.nodup_append]
      refine ⟨hInv.rowsNodup, by simp [mkTxRow], ?_⟩
      intro a ha
      obtain ⟨tr, htr, rfl⟩ := List.mem_map.mp ha
      simp only [List.map_cons, List.map_nil, List.mem_singleton, mkTxRow]
      intro hcon
      exact hhash_not_row tr htr hcon
    · intro tr htr
      rcases List.mem_append.mp htr with htr | htr
      · obtain ⟨rc, hrcm, hrc⟩ := hInv.rowRec tr htr
        exact ⟨rc, List.mem_append_left _ hrcm, hrc⟩
      · have : tr = mkTxRow ⟨st.txid + 1, bid, n, tx.hash, tx.version, tx.locktime, false⟩ := by
          simpa using htr
        subst this
        exact ⟨⟨st.txid + 1, bid, n, tx.hash, tx.version, tx.locktime, false⟩,
          List.mem_append_right _ (by simp), rfl, rfl, rfl⟩
    · intro rc hrc
      rcases List.mem_append.mp hrc with hrc | hrc
      · obtain ⟨tr, htrm, htr⟩ := hInv.recRow rc hrc
        exact ⟨tr, List.mem_append_left _ htrm, htr⟩
      · have : rc = ⟨st.txid + 1, bid, n, tx.hash, tx.version, tx.locktime, false⟩ := by
          simpa using hrc
        subst this
        exact ⟨mkTxRow ⟨st.txid + 1, bid, n, tx.hash, tx.version, tx.locktime, false⟩,
          List.mem_append_right _ (by simp), rfl, rfl⟩
    · intro rc hrc
      rcases List.mem_append.mp hrc with hrc | hrc
      · exact List.mem_append_left _ (hInv.recBtx rc hrc)
      · have : rc = ⟨st.txid + 1, bid, n, tx.hash, tx.version, tx.locktime, false⟩ := by
          simpa using hrc
        subst this
        exact List.mem_append_right _ (by simp)
    · intro r hr
      rw [hnew] at hr
      rcases List.mem_append.mp hr with hr | hr
      · obtain ⟨rc, hrcm, hrc⟩ := hInv.insOk r hr
        exact ⟨rc, List.mem_append_left _ hrcm, hrc⟩
      · exact ⟨⟨st.txid + 1, bid, n, tx.hash, tx.version, tx.locktime, false⟩,
          List.mem_append_right _ (by simp), rfl, (hnewP r hr).symm⟩
    · intro r hr
      rcases List.mem_append.mp hr with hr | hr
      · obtain ⟨rc, hrcm, hrc⟩ := hInv.outsOk r hr
        exact ⟨rc, List.mem_append_left _ hrcm, hrc⟩
      · exact ⟨⟨st.txid + 1, bid, n, tx.hash, tx.version, tx.locktime, false⟩,
          List.mem_append_right _ (by simp), rfl,
          (mkTxOutRows_txId (st.txid + 1) tx.txOuts 0 r hr).symm⟩
    · show (runIns (st.txid + 1) 0 _ st.txinRows tx.txIns).1.entries.length ≤
        st.cache.entries.length + 1
      rw [hlen2]
      simp
    · show (runIns (st.txid + 1) 0 _ st.txinRows tx.txIns).1.size = st.cache.size
      rw [hsz]

theorem inv_runTxs (bid : Int) :
    ∀ (l : List Tx) (n : Nat) (st : WorkerSt), Inv st →
      st.cache.entries.length + l.length ≤ st.cache.size →
      Inv (runTxs bid n st l) ∧
      ((runTxs bid n st l).cache.entries.length ≤ st.cache.entries.length + l.length) ∧
      ((runTxs bid n st l).cache.size = st.cache.size) := by
  intro l
  induction l with
  | nil => intro n st h _; exact ⟨h, by simp [runTxs], rfl⟩
  | cons t ts ih =>
    intro n st h hlen
    have hlt : st.cache.entries.length < st.cache.size := by
      simp only [List.length_cons] at hlen
      omega
    obtain ⟨h1, h2, h3⟩ := inv_processTx bid n t st h hlt
    obtain ⟨g1, g2, g3⟩ := ih (n + 1) (processTx bid n t st) h1 (by
      rw [h3]
      simp only [List.length_cons] at hlen
      omega)
    refine ⟨g1, ?_, by rw [runTxs, g3, h3]⟩
    rw [runTxs]
    simp only [List.length_cons]
    omega

theorem inv_processBlock (d : Bool) (st : WorkerSt) (b : BlockInfo)
    (hInv : Inv st)
    (hlen : st.cache.entries.length + b.txs.length ≤ st.cache.size) :
    Inv (processBlock d st b) ∧
    ((processBlock d st b).cache.entries.length ≤
      st.cache.entries.length + b.txs.length) ∧
    ((processBlock d st b).cache.size = st.cache.size) := by
  have hmid : Inv { st with
      bid := st.bid + 1
      blockRows := st.blockRows ++ [mkBlockRow (st.bid + 1) 0 0 b] } :=
    ⟨hInv.keysNodup, hInv.idBound, hInv.cacheRow, hInv.rowCache, hInv.rowsNodup,
      hInv.rowRec, hInv.recRow, hInv.recBtx, hInv.insOk, hInv.outsOk⟩
  obtain ⟨g1, g2, g3⟩ := inv_runTxs (st.bid + 1) b.txs 0 _ hmid hlen
  exact ⟨⟨g1.keysNodup, g1.idBound, g1.cacheRow, g1.rowCache, g1.rowsNodup,
    g1.rowRec, g1.recRow, g1.recBtx, g1.insOk, g1.outsOk⟩, g2, g3⟩

theorem inv_runBlocks (d : Bool) :
    ∀ (bs : List BlockInfo) (st : WorkerSt), Inv st →
      st.cache.entries.length + txCount bs ≤ st.cache.size →
      Inv (runBlocks d st bs) ∧
      ((runBlocks d st bs).cache.entries.length ≤
        st.cache.entries.length + txCount bs) ∧
      ((runBlocks d st bs).cache.size = st.cache.size) := by
  intro bs
  induction bs with
  | nil => intro st h _; exact ⟨h, by simp [runBlocks, txCount], rfl⟩
  | cons b bs ih =>
    intro st h hlen
    have hcnt : txCount (b :: bs) = b.txs.length + txCount bs := by
      simp [txCount]
    rw [hcnt] at hlen
    obtain ⟨h1, h2, h3⟩ := inv_processBlock d st b h (by omega)
    obtain ⟨g1, g2, g3⟩ := ih (processBlock d st b) h1 (by rw [h3]; omega)
    refine ⟨g1, ?_, by rw [runBlocks, g3, h3]⟩
    rw [runBlocks, hcnt]
    omega

/-! ## Claim C2: duplicate transaction reuse -/

/-- C2: as long as cache entries stay live (no eviction — guaranteed here
by a capacity at least the number of ingested txs), a tx hash seen a second
time yields a record flagged `dupe` carrying the earlier id; the tx writer
inserts no second `txs` row but does insert the `block_txs` row; no txin or
txout rows are produced for the dupe sighting.  Hence `txs` txids are
unique, every emitted record points (via `block_txs`) at the unique `txs`
row of its hash, records with equal hashes share one id, every dupe record
has a non-dupe twin with the same hash and id, and every txin/txout row
belongs to a non-dupe record.  (The cache is modelled from the spec.) -/
theorem c2_duplicate_tx_reuse (d : Bool) (cs : Nat) (b0 t0 : Int) (o : Option Nat)
    (blocks : List BlockInfo)
    (hcap : txCount (accepted o blocks) ≤ cs) :
    (((coreWorker d b0 t0 o cs blocks).txRows.map TxRow.txid).Nodup) ∧
    (∀ rc ∈ (coreWorker d b0 t0 o cs blocks).txRecs,
      (∃ tr ∈ (coreWorker d b0 t0 o cs blocks).txRows,
        tr.txid = rc.hash ∧ tr.id = rc.id) ∧
      (⟨rc.blockId, rc.n, rc.id⟩ : BlockTxRow) ∈
        (coreWorker d b0 t0 o cs blocks).blockTxRows) ∧
    (∀ rc1 ∈ (coreWorker d b0 t0 o cs blocks).txRecs,
      ∀ rc2 ∈ (coreWorker d b0 t0 o cs blocks).txRecs,
        rc1.hash = rc2.hash → rc1.id = rc2.id) ∧
    (∀ rc ∈ (coreWorker d b0 t0 o cs blocks).txRecs, rc.dupe = true →
      ∃ rc2 ∈ (coreWorker d b0 t0 o cs blocks).txRecs,
        rc2.dupe = false ∧ rc2.hash = rc.hash ∧ rc2.id = rc.id) ∧
    (∀ r ∈ (coreWorker d b0 t0 o cs blocks).txinRows,
      ∃ rc ∈ (coreWorker d b0 t0 o cs blocks).txRecs,
        rc.dupe = false ∧ rc.id = r.txId) ∧
    (∀ r ∈ (coreWorker d b0 t0 o cs blocks).txoutRows,
      ∃ rc ∈ (coreWorker d b0 t0 o cs blocks).txRecs,
        rc.dupe = false ∧ rc.id = r.txId) := by
  have hinv0 : Inv (initSt b0 t0 cs) := by
    constructor <;> simp [initSt, newTxIdCache]
  have hlen0 : (initSt b0 t0 cs).cache.entries.length + txCount (accepted o blocks) ≤
      (initSt b0 t0 cs).cache.size := by
    simpa [initSt, newTxIdCache] using hcap
  obtain ⟨hinv, -, -⟩ :=
    inv_runBlocks d (accepted o blocks) (initSt b0 t0 cs) hinv0 hlen0
  refine ⟨hinv.rowsNodup, ?_, ?_, ?_, hinv.insOk, hinv.outsOk⟩
  · intro rc hrc
    exact ⟨hinv.recRow rc hrc, hinv.recBtx rc hrc⟩
  · intro rc1 h1 rc2 h2 hh
    obtain ⟨tr1, htr1m, htr1h, htr1i⟩ := hinv.recRow rc1 h1
    obtain ⟨tr2, htr2m, htr2h, htr2i⟩ := hinv.recRow rc2 h2
    have : tr1 = tr2 :=
      List.inj_on_of_nodup_map hinv.rowsNodup htr1m htr2m (by rw [htr1h, htr2h, hh])
    subst this
    rw [← htr1i, ← htr2i]
  · intro rc hrc _
    obtain ⟨tr, htrm, htrh, htri⟩ := hinv.recRow rc hrc
    obtain ⟨rc2, hrc2m, hrc2d, hrc2h, hrc2i⟩ := hinv.rowRec tr htrm
    exact ⟨rc2, hrc2m, hrc2d, by rw [hrc2h, htrh], by rw [hrc2i, htri]⟩

/-- Witness for C2: two blocks carrying the same txid, capacity 4. -/
theorem c2_duplicate_tx_reuse_witness :
    (txCount (accepted none
        [⟨1, 0, 1, 0, 0, 0, 0, 0, 0, [⟨100, 1, 0, [], [⟨5, []⟩]⟩]⟩,
          ⟨2, 1, 1, 0, 0, 0, 0, 0, 0, [⟨100, 1, 0, [], [⟨5, []⟩]⟩]⟩]) ≤ 4) ∧
    (((coreWorker true 0 0 none 4
        [⟨1, 0, 1, 0, 0, 0, 0, 0, 0, [⟨100, 1, 0, [], [⟨5, []⟩]⟩]⟩,
          ⟨2, 1, 1, 0, 0, 0, 0, 0, 0, [⟨100, 1, 0, [], [⟨5, []⟩]⟩]⟩]).txRows.map
        TxRow.txid).Nodup) :=
  ⟨by decide,
    (c2_duplicate_tx_reuse true 4 0 0 none
      [⟨1, 0, 1, 0, 0, 0, 0, 0, 0, [⟨100, 1, 0, [], [⟨5, []⟩]⟩]⟩,
        ⟨2, 1, 1, 0, 0, 0, 0, 0, 0, [⟨100, 1, 0, [], [⟨5, []⟩]⟩]⟩] (by decide)).1⟩

/-! ## Claim C3: the coinbase rule for txins -/

theorem mkTxInRow_coinbase (c : TxIdCache) (txId : Int) (n : Nat) (t : TxIn)
    (ht : t.prevoutN = 4294967295) :
    (mkTxInRow c txId n t).2.prevoutTxId = none := by
  unfold mkTxInRow
  rw [if_neg (by simp [ht])]

theorem mkTxInRow_noncoinbase (c : TxIdCache) (txId : Int) (n : Nat) (t : TxIn)
    (ht : t.prevoutN ≠ 4294967295) :
    (mkTxInRow c txId n t).2.prevoutTxId = (c.check t.prevoutHash).1 := by
  unfold mkTxInRow
  rw [if_pos ht]

theorem runIns_coinbase (txId : Int) :
    ∀ (l : List TxIn) (n : Nat) (c : TxIdCache) (rows : List TxInRow),
      (∀ r ∈ rows, r.prevoutN = -1 → r.prevoutTxId = none) →
      (∀ t ∈ l, t.prevoutN < 4294967296) →
      ∀ r ∈ (runIns txId n c rows l).2, r.prevoutN = -1 → r.prevoutTxId = none := by
  intro l
  induction l with
  | nil => intro n c rows hrows _; exact hrows
  | cons t ts ih =>
    intro n c rows hrows hwf
    rw [runIns]
    refine ih (n + 1) _ _ ?_ (fun x hx => hwf x (by simp [hx]))
    intro r hr
    rcases List.mem_append.mp hr with hr | hr
    · exact hrows r hr
    · have hrt : r = (mkTxInRow c txId n t).2 := by simpa using hr
      subst hrt
      by_cases hcb : t.prevoutN = 4294967295
      · intro _
        exact mkTxInRow_coinbase c txId n t hcb
      · intro hneg
        have hpn : (mkTxInRow c txId n t).2.prevoutN = toInt32 t.prevoutN := by
          unfold mkTxInRow
          split <;> rfl
        rw [hpn] at hneg
        have := toInt32_of_lt t.prevoutN (hwf t (by simp)) hneg
        exact absurd this hcb

theorem coinbase_processTx (bid : Int) (n : Nat) (tx : Tx) (st : WorkerSt)
    (hrows : ∀ r ∈ st.txinRows, r.prevoutN = -1 → r.prevoutTxId = none)
    (hwf : ∀ t ∈ tx.txIns, t.prevoutN < 4294967296) :
    ∀ r ∈ (processTx bid n tx st).txinRows, r.prevoutN = -1 → r.prevoutTxId = none := by
  unfold processTx
  dsimp only
  split
  · exact hrows
  · exact runIns_coinbase (st.txid + 1) tx.txIns 0 _ st.txinRows hrows hwf

theorem coinbase_runTxs (bid : Int) :
    ∀ (l : List Tx) (n : Nat) (st : WorkerSt),
      (∀ r ∈ st.txinRows, r.prevoutN = -1 → r.prevoutTxId = none) →
      (∀ t ∈ l, ∀ i ∈ t.txIns, i.prevoutN < 4294967296) →
      ∀ r ∈ (runTxs bid n st l).txinRows, r.prevoutN = -1 → r.prevoutTxId = none := by
  intro l
  induction l with
  | nil => intro n st hrows _; exact hrows
  | cons t ts ih =>
    intro n st hrows hwf
    rw [runTxs]
    exact ih (n + 1) _
      (coinbase_processTx bid n t st hrows (hwf t (by simp)))
      (fun x hx => hwf x (by simp [hx]))

theorem coinbase_runBlocks (d : Bool) :
    ∀ (bs : List BlockInfo) (st : WorkerSt),
      (∀ r ∈ st.txinRows, r.prevoutN = -1 → r.prevoutTxId = none) →
      (∀ b ∈ bs, ∀ t ∈ b.txs, ∀ i ∈ t.txIns, i.prevoutN < 4294967296) →
      ∀ r ∈ (runBlocks d st bs).txinRows, r.prevoutN = -1 → r.prevoutTxId = none := by
  intro bs
  induction bs with
  | nil => intro st hrows _; exact hrows
  | cons b bs ih =>
    intro st hrows hwf
    rw [runBlocks]
    refine ih _ ?_ (fun x hx => hwf x (by simp [hx]))
    show ∀ r ∈ (processBlock d st b).txinRows, r.prevoutN = -1 → r.prevoutTxId = none
    unfold processBlock
    dsimp only
    exact coinbase_runTxs (st.bid + 1) b.txs 0 _ hrows (hwf b (by simp))

theorem skipBlocks_subset (h : Nat) :
    ∀ l : List BlockInfo, ∀ b ∈ skipBlocks h l, b ∈ l := by
  intro l
  induction l with
  | nil => simp [skipBlocks]
  | cons x xs ih =>
    intro b hb
    rw [skipBlocks] at hb
    split at hb
    · exact List.mem_cons_of_mem _ hb
    · exact List.mem_cons_of_mem _ (ih b hb)

/-- C3: every txins row written for a coinbase input (`prevout_n ==
0xFFFFFFFF`, stored as −1) has `prevout_tx_id = NULL`; for a non-coinbase
input the field is exactly the result of the cache check on the prevout
hash (`some id` on a hit, `none` on a miss).  (The cache is modelled from
the spec.) -/
theorem c3_coinbase_prevout (d : Bool) (cs : Nat) (b0 t0 : Int) (o : Option Nat)
    (blocks : List BlockInfo) (hwf : WfBlocks blocks) :
    (∀ r ∈ (coreWorker d b0 t0 o cs blocks).txinRows,
      r.prevoutN = -1 → r.prevoutTxId = none) ∧
    (∀ (c : TxIdCache) (txId : Int) (n : Nat) (t : TxIn),
      t.prevoutN = 4294967295 → (mkTxInRow c txId n t).2.prevoutTxId = none) ∧
    (∀ (c : TxIdCache) (txId : Int) (n : Nat) (t : TxIn),
      t.prevoutN ≠ 4294967295 →
        (mkTxInRow c txId n t).2.prevoutTxId = (c.check t.prevoutHash).1) := by
  refine ⟨?_, mkTxInRow_coinbase, mkTxInRow_noncoinbase⟩
  refine coinbase_runBlocks d (accepted o blocks) (initSt b0 t0 cs) ?_ ?_
  · intro r hr
    simp [initSt] at hr
  · intro b hb
    rcases o with - | h
    · exact hwf b hb
    · exact hwf b (skipBlocks_subset h blocks b hb)

/-- Witness for C3: a block whose tx has a coinbase input and a
non-coinbase input. -/
theorem c3_coinbase_prevout_witness :
    (WfBlocks [⟨1, 0, 1, 0, 0, 0, 0, 0, 0,
        [⟨7, 1, 0, [⟨0, 4294967295, [], 5, none⟩, ⟨9, 0, [], 5, none⟩], [⟨5, []⟩]⟩]⟩]) ∧
    (∀ r ∈ (coreWorker true 0 0 none 4
        [⟨1, 0, 1, 0, 0, 0, 0, 0, 0,
          [⟨7, 1, 0, [⟨0, 4294967295, [], 5, none⟩, ⟨9, 0, [], 5, none⟩], [⟨5, []⟩]⟩]⟩]).txinRows,
      r.prevoutN = -1 → r.prevoutTxId = none) :=
  ⟨by unfold WfBlocks; decide,
    (c3_coinbase_prevout true 4 0 0 none
      [⟨1, 0, 1, 0, 0, 0, 0, 0, 0,
        [⟨7, 1, 0, [⟨0, 4294967295, [], 5, none⟩, ⟨9, 0, [], 5, none⟩], [⟨5, []⟩]⟩]⟩]
      (by unfold WfBlocks; decide)).1⟩

end Blkchain
